import Mathlib

/-!
# CG-Rift1: world model and per-turn acquisition loop

A shallow embedding of `src/template.cpp`.

* C++ `int` values are modelled by `Int`.  No arithmetic of the program can
  overflow on the paths modelled here: the only arithmetic is `a % MAP_SIZE`,
  `MAP_SIZE - 1`, the loop counter `i < MAP_SIZE` and `platinum -= POD_COST`,
  the last one executed only when `platinum >= POD_COST`.
* The three fixed-size arrays of `Map` are modelled as total functions on the
  index; the subscript operation itself checks the bounds of the C++ array and
  reports `Fault.outOfBounds` (undefined behaviour in C++) outside them.
* `assert` is modelled as a check that ends the computation with
  `Fault.assertion`.
* `std::cout` is modelled as the list of items streamed into it.
* The random generator is an oracle `rnd : Nat → Int`: `rnd k` is the value
  returned by the `k`-th call of `randomNumber`.
* The `while` loop carries a fuel argument bounding the number of iterations;
  `Fault.fuel` is reported when the bound is hit while the loop condition still
  holds.
-/

/-! ## Configuration -/

/-- The constant `TIMEOUT`. -/
def TIMEOUT : Int := 95

/-- The constant `MAP_SIZE`. -/
def MAP_SIZE : Int := 154

/-- The constant `MAP_PLAYER`; only used as the length of `Cell::pods`. -/
def MAP_PLAYER : Nat := 4

/-- The constant `POD_COST`. -/
def POD_COST : Int := 20

/-! ## Faults and output -/

/-- Ways in which a modelled computation ends without a result. -/
inductive Fault where
  /-- An `assert` failed. -/
  | assertion
  /-- An array was subscripted outside its bounds. -/
  | outOfBounds
  /-- The iteration bound given to a `while` loop was reached. -/
  | fuel
  deriving DecidableEq, Repr

/-- One item streamed into `std::cout`. -/
inductive Out where
  /-- A string literal. -/
  | str (s : String)
  /-- An `int`, printed in decimal. -/
  | int (n : Int)
  /-- The manipulator `std::endl`. -/
  | endl
  deriving DecidableEq, Repr

/-- The text an item prints. -/
def Out.render : Out → String
  | .str s => s
  | .int n => toString n
  | .endl => "\n"

/-- The text of a whole output stream. -/
def renderAll (o : List Out) : String :=
  String.join (o.map Out.render)

/-- The `int` values streamed into the output, in order. -/
def Out.ints : List Out → List Int
  | [] => []
  | .int n :: rest => n :: Out.ints rest
  | _ :: rest => Out.ints rest

/-! ## Model -/

namespace model

/-- The struct `Map::Cell`. -/
@[ext]
structure Cell where
  /-- The field `owner`. -/
  owner : Int
  /-- The array `pods[MAP_PLAYER]`. -/
  pods : Fin MAP_PLAYER → Int

/-- The constant `Cell::NEUTRAL`. -/
def Cell.NEUTRAL : Int := -1

/-- The constructor `Cell()`: neutral owner, all pods zero. -/
def Cell.new : Cell := { owner := Cell.NEUTRAL, pods := fun _ => 0 }

/-- The class `Map`: three arrays of length `MAP_SIZE`. -/
structure Map where
  /-- The array `platinumSource[MAP_SIZE]`. -/
  platinumSource : Int → Int
  /-- The array `neighbors[MAP_SIZE]`. -/
  neighbors : Int → List Int
  /-- The array `cells[MAP_SIZE]`. -/
  cells : Int → Cell

/-- The global `Map map;` as initialised at program start: static storage is
zero-initialised, vectors are empty, cells are built by `Cell()`. -/
def Map.initial : Map :=
  { platinumSource := fun _ => 0, neighbors := fun _ => [], cells := fun _ => Cell.new }

/-- The asserted expression `(a % MAP_SIZE) == a`, with the truncating remainder
of C++. -/
def indexGuard (a : Int) : Bool :=
  Int.tmod a MAP_SIZE == a

/-- Subscripting `arr[a]` of an array of length `MAP_SIZE`, for reading. -/
def subscript {α : Type} (arr : Int → α) (a : Int) : Except Fault α :=
  if 0 ≤ a ∧ a < MAP_SIZE then .ok (arr a) else .error .outOfBounds

/-- Subscripting `arr[a]` of an array of length `MAP_SIZE`, for updating the
element in place. -/
def subscriptModify {α : Type} (arr : Int → α) (a : Int) (f : α → α) :
    Except Fault (Int → α) :=
  if 0 ≤ a ∧ a < MAP_SIZE then .ok (Function.update arr a (f (arr a)))
  else .error .outOfBounds

/-- The method `Map::getNeighbors`. -/
def Map.getNeighbors (m : Map) (a : Int) : Except Fault (List Int) :=
  if indexGuard a then subscript m.neighbors a else .error .assertion

/-- The method `Map::getCell`, used as an rvalue. -/
def Map.getCell (m : Map) (a : Int) : Except Fault Cell :=
  if indexGuard a then subscript m.cells a else .error .assertion

/-- The method `Map::getCell`, used as an lvalue: the cell it refers to is
replaced by `f` of its current value. -/
def Map.modifyCell (m : Map) (a : Int) (f : Cell → Cell) : Except Fault Map :=
  if indexGuard a then
    (subscriptModify m.cells a f).map (fun cs => { m with cells := cs })
  else .error .assertion

/-- The method `Map::getPlatinumSource`. -/
def Map.getPlatinumSource (m : Map) (a : Int) : Except Fault Int :=
  if indexGuard a then subscript m.platinumSource a else .error .assertion

/-- The method `Map::addLink`. -/
def Map.addLink (m : Map) (a b : Int) : Except Fault Map :=
  if indexGuard a then
    if indexGuard b then do
      let n1 ← subscriptModify m.neighbors a (fun l => l ++ [b])
      let n2 ← subscriptModify n1 b (fun l => l ++ [a])
      pure { m with neighbors := n2 }
    else .error .assertion
  else .error .assertion

/-- The method `Map::setPlatinumSource`. -/
def Map.setPlatinumSource (m : Map) (a : Int) (value : Int) : Except Fault Map :=
  if indexGuard a then
    (subscriptModify m.platinumSource a (fun _ => value)).map
      (fun ps => { m with platinumSource := ps })
  else .error .assertion

end model

open model

/-! ## View -/

namespace view

/-- One zone line of the turn input:
`zoneId ownerId podsP0 podsP1 podsP2 podsP3`. -/
structure ZoneLine where
  /-- The value read into `zoneId`. -/
  zoneId : Int
  /-- The value read into `ownerId`. -/
  ownerId : Int
  /-- The value read into `podsP0`. -/
  podsP0 : Int
  /-- The value read into `podsP1`. -/
  podsP1 : Int
  /-- The value read into `podsP2`. -/
  podsP2 : Int
  /-- The value read into `podsP3`. -/
  podsP3 : Int

/-- The five assignments `cell.owner = ownerId; cell.pods[0] = podsP0; ...
cell.pods[3] = podsP3` of `readTurnInput`, applied to the cell `c`. -/
def assignLine (l : ZoneLine) (c : Cell) : Cell :=
  { owner := l.ownerId,
    pods := Function.update (Function.update (Function.update (Function.update c.pods
      ⟨0, by decide⟩ l.podsP0) ⟨1, by decide⟩ l.podsP1) ⟨2, by decide⟩ l.podsP2)
      ⟨3, by decide⟩ l.podsP3 }

/-- The body of the `for` loop of `readTurnInput` for one line: the cell
`getCell(zoneId)` gets the owner and the four pods counts of the line. -/
def loadLine (m : Map) (l : ZoneLine) : Except Fault Map :=
  m.modifyCell l.zoneId (assignLine l)

/-- The function `readTurnInput`: `platinum` is the first number of the turn
input and `lines i` the `i`-th zone line after it; the loop reads `MAP_SIZE`
lines.  Returns `state.me.platinum` and the updated global map. -/
def readTurnInput (m : Map) (platinum : Int) (lines : Nat → ZoneLine) :
    Except Fault (Int × Map) := do
  let m' ← (List.range MAP_SIZE.toNat).foldlM (fun acc (i : Nat) => loadLine acc (lines i)) m
  pure (platinum, m')

end view

/-! ## Main: the acquisition loop -/

/-- The body of the scan `for` loop: `acc = (best, bestValue)`, `i` the loop
counter.  The right operand of `&&` is evaluated only when the left one holds. -/
def scanBody (map : Map) (acc : Int × Int) (i : Int) : Except Fault (Int × Int) := do
  let v ← map.getPlatinumSource i
  if v > acc.2 then
    let c ← map.getCell i
    if c.owner = Cell.NEUTRAL then
      let v' ← map.getPlatinumSource i
      pure (i, v')
    else pure acc
  else pure acc

/-- The scan `for (int i = 0; i < MAP_SIZE; ++i)` started with `best` and
`bestValue = 0`; returns the final `(best, bestValue)`. -/
def scanLoop (map : Map) (best : Int) : Except Fault (Int × Int) :=
  (List.range MAP_SIZE.toNat).foldlM (fun acc (i : Nat) => scanBody map acc (i : Int)) (best, 0)

/-- The part of the program state the game loop works on. -/
structure Machine where
  /-- The variable `state.me.platinum`. -/
  platinum : Int
  /-- The global `model::map`. -/
  map : Map
  /-- Everything streamed into `cout` so far. -/
  cout : List Out
  /-- The number of calls of `randomNumber` so far. -/
  draws : Nat

/-- The function `randomNumber`: the next value of the generator.  The
distribution is asked for a value in `[min, max]`. -/
def randomNumber (rnd : Nat → Int) (draws : Nat) (_min _max : Int) : Int :=
  rnd draws

/-- The contract of `randomNumber(0, MAP_SIZE - 1)`: every value drawn lies in
`[0, MAP_SIZE - 1]`. -/
def DrawsInRange (rnd : Nat → Int) : Prop :=
  ∀ k, 0 ≤ rnd k ∧ rnd k ≤ MAP_SIZE - 1

/-- One iteration of the body of `while (state.me.platinum >= POD_COST)`. -/
def acquisitionStep (myId : Int) (rnd : Nat → Int) (s : Machine) : Except Fault Machine := do
  let best0 := randomNumber rnd s.draws 0 (MAP_SIZE - 1)
  let r ← scanLoop s.map best0
  let best := r.1
  let platinum := s.platinum - POD_COST
  let cout := s.cout ++ [Out.str "1 ", Out.int best, Out.str " "]
  let map ← s.map.modifyCell best (fun c => { c with owner := myId })
  pure { platinum := platinum, map := map, cout := cout, draws := s.draws + 1 }

/-- The loop `while (state.me.platinum >= POD_COST)`, run for at most `fuel`
iterations. -/
def acquisitionLoop (myId : Int) (rnd : Nat → Int) : Nat → Machine → Except Fault Machine
  | 0, s => if s.platinum ≥ POD_COST then .error .fuel else .ok s
  | fuel + 1, s =>
    if s.platinum ≥ POD_COST then do
      let s' ← acquisitionStep myId rnd s
      acquisitionLoop myId rnd fuel s'
    else .ok s

/-- The machine state on entry to the acquisition loop of a turn. -/
def Machine.start (platinum : Int) (map : Map) : Machine :=
  { platinum := platinum, map := map, cout := [], draws := 0 }

/-- The zone indices written as acquisition commands. -/
def Machine.commands (s : Machine) : List Int :=
  Out.ints s.cout

/-- Zone `z` is a candidate of the greedy scan on `map`: in range, Neutral and
of positive yield. -/
def Candidate (map : Map) (z : Int) : Prop :=
  0 ≤ z ∧ z < MAP_SIZE ∧ (map.cells z).owner = Cell.NEUTRAL ∧ 0 < map.platinumSource z

/-- Zone `best` is what the scan seeded with the draw `r` selects on `map`:
either the Neutral zone of greatest yield and, among those, of least index,
when there is a candidate, or else the draw itself. -/
def Selected (map : Map) (r best : Int) : Prop :=
  (Candidate map best ∧
    (∀ z, 0 ≤ z → z < MAP_SIZE → (map.cells z).owner = Cell.NEUTRAL →
      map.platinumSource z ≤ map.platinumSource best) ∧
    (∀ z, 0 ≤ z → z < MAP_SIZE → (map.cells z).owner = Cell.NEUTRAL →
      map.platinumSource z = map.platinumSource best → best ≤ z))
  ∨ ((∀ z, ¬ Candidate map z) ∧ best = r)

/-- The machine right after the purchase of zone `best`. -/
def Machine.bought (myId : Int) (s : Machine) (best : Int) : Machine :=
  { platinum := s.platinum - POD_COST,
    map := { s.map with
      cells := Function.update s.map.cells best { s.map.cells best with owner := myId } },
    cout := s.cout ++ [Out.str "1 ", Out.int best, Out.str " "],
    draws := s.draws + 1 }

/-- The relation between the machine on entry to the acquisition loop and the
machine on exit from it, as a sequence of purchases of selected zones. -/
inductive Run (myId : Int) (rnd : Nat → Int) : Machine → Machine → Prop where
  | stop (s : Machine) : s.platinum < POD_COST → Run myId rnd s s
  | buy (s s' : Machine) (best : Int) :
      POD_COST ≤ s.platinum → 0 ≤ best → best < MAP_SIZE →
      Selected s.map (rnd s.draws) best →
      Run myId rnd (s.bought myId best) s' → Run myId rnd s s'

/-- Zone `a` comes before zone `b` in the order of the greedy choice on `map`:
greater yield first and, among equal yields, smaller index first. -/
def GreedyBefore (map : Map) (a b : Int) : Prop :=
  map.platinumSource b < map.platinumSource a ∨
    (map.platinumSource a = map.platinumSource b ∧ a < b)

instance (map : Map) (z : Int) : Decidable (Candidate map z) := by
  unfold Candidate
  infer_instance

instance (map : Map) (a b : Int) : Decidable (GreedyBefore map a b) := by
  unfold GreedyBefore
  infer_instance

/-! ## Sequences of links -/

/-- The calls `addLink(a, b)` for the pairs `(a, b)` of `links`, in order, as
made by the second loop of `readInitializationInput`. -/
def model.Map.addLinks (m : Map) (links : List (Int × Int)) : Except Fault Map :=
  links.foldlM (fun acc l => acc.addLink l.1 l.2) m

/-- What a sequence of `addLink` calls appends to the neighbor list of `z`:
each call `addLink(a, b)` appends `b` if `a = z` and then `a` if `b = z`. -/
def appendedTo : List (Int × Int) → Int → List Int
  | [], _ => []
  | l :: rest, z =>
    (if l.1 = z then [l.2] else []) ++ (if l.2 = z then [l.1] else []) ++ appendedTo rest z

/-- Walking the links in order and emitting the other endpoint of each link
that has `z` as an endpoint. -/
def otherEndpoints (links : List (Int × Int)) (z : Int) : List Int :=
  links.filterMap (fun l => if l.1 = z then some l.2 else if l.2 = z then some l.1 else none)

/-! ## Concrete inputs -/

/-- The generator that returns `r` at every call. -/
def constDraw (r : Int) : Nat → Int :=
  fun _ => r

/-- A map with yields `10, 5, 0, 0, ...` and every zone Neutral. -/
def yieldsMap : Map :=
  { Map.initial with platinumSource := fun z => if z = 0 then 10 else if z = 1 then 5 else 0 }

/-- A map with all yields zero and every zone owned by player `1`. -/
def occupiedMap : Map :=
  { Map.initial with cells := fun _ => { Cell.new with owner := 1 } }

/-- A complete turn snapshot: line `i` is for zone `i`, owned by player `1`
with `2` pods of player `1`. -/
def snapshotLines : Nat → view.ZoneLine :=
  fun i => { zoneId := i, ownerId := 1, podsP0 := 0, podsP1 := 2, podsP2 := 0, podsP3 := 0 }

/-! ## The game loop -/

/-- The machine after at most `n` iterations of the loop
`while (state.me.platinum >= POD_COST)`: as `acquisitionLoop`, but stopping
after the `n`-th iteration instead of reporting `Fault.fuel`. -/
def acquisitionPrefix (myId : Int) (rnd : Nat → Int) : Nat → Machine → Except Fault Machine
  | 0, s => .ok s
  | n + 1, s =>
    if s.platinum ≥ POD_COST then do
      let s' ← acquisitionStep myId rnd s
      acquisitionPrefix myId rnd n s'
    else .ok s

/-- One iteration of the game loop `while (1)` of `main`: the turn input
(`platinum`, `lines`) is read into the global map, `WAIT` and `endl` are
written, the acquisition loop runs (for at most `fuel` iterations) and a final
`endl` is written. -/
def gameTurn (myId : Int) (rnd : Nat → Int) (fuel : Nat) (s : Machine) (platinum : Int)
    (lines : Nat → view.ZoneLine) : Except Fault Machine := do
  let state ← view.readTurnInput s.map platinum lines
  let s1 : Machine :=
    { platinum := state.1, map := state.2, cout := s.cout ++ [Out.str "WAIT", Out.endl],
      draws := s.draws }
  let s2 ← acquisitionLoop myId rnd fuel s1
  pure { s2 with cout := s2.cout ++ [Out.endl] }

/-- The items written for the acquisition commands of the zones `zs`. -/
def commandItems : List Int → List Out
  | [] => []
  | z :: zs => [Out.str "1 ", Out.int z, Out.str " "] ++ commandItems zs

/-- One of the operations on the global map that follow the yield setup. -/
inductive MapOp where
  /-- A call `addLink(a, b)`. -/
  | addLink (a b : Int)
  /-- The cell updates of `readTurnInput` for a turn snapshot. -/
  | load (platinum : Int) (lines : Nat → view.ZoneLine)
  /-- A pass of the acquisition loop started with `platinum`. -/
  | acquire (myId : Int) (rnd : Nat → Int) (fuel : Nat) (platinum : Int)

/-- The effect of an action on the map. -/
def MapOp.run (m : Map) : MapOp → Except Fault Map
  | .addLink a b => m.addLink a b
  | .load platinum lines => (view.readTurnInput m platinum lines).map Prod.snd
  | .acquire myId rnd fuel platinum =>
    (acquisitionLoop myId rnd fuel (Machine.start platinum m)).map Machine.map

/-- A sequence of actions, in order. -/
def runMapOps (m : Map) (acts : List MapOp) : Except Fault Map :=
  acts.foldlM MapOp.run m

/-- The inputs of the action respect the protocol: link ends and zoneIds are in
`[0, MAP_SIZE)`, draws are in the range asked from `randomNumber`, and the
iteration bound suffices. -/
def MapOp.WellFormed : MapOp → Prop
  | .addLink a b => 0 ≤ a ∧ a < MAP_SIZE ∧ 0 ≤ b ∧ b < MAP_SIZE
  | .load _ lines =>
    ∀ i : Nat, (i : Int) < MAP_SIZE → 0 ≤ (lines i).zoneId ∧ (lines i).zoneId < MAP_SIZE
  | .acquire _ rnd fuel platinum => DrawsInRange rnd ∧ (platinum / POD_COST).toNat ≤ fuel

/-- A map with all yields zero except yield `5` on zone `7`, and every zone
owned by player `1`. -/
def ownedYieldMap : Map :=
  { platinumSource := fun z => if z = 7 then 5 else 0,
    neighbors := fun _ => [],
    cells := fun _ => { Cell.new with owner := 1 } }

/-- The generator that returns `a` at its first call and `b` at every later
call. -/
def drawsThen (a b : Int) : Nat → Int :=
  fun k => if k = 0 then a else b


/-! ## Index guard and accessors -/

theorem indexGuard_iff (a : Int) : indexGuard a = true ↔ -MAP_SIZE < a ∧ a < MAP_SIZE := by
  unfold indexGuard MAP_SIZE
  rw [beq_iff_eq, Int.tmod_def]
  rcases Int.le_total 0 a with h | h
  · rw [Int.tdiv_eq_ediv h (by decide)]
    omega
  · obtain ⟨c, rfl⟩ : ∃ c, a = -c := ⟨-a, by omega⟩
    rw [Int.neg_tdiv, Int.tdiv_eq_ediv (by omega) (by decide)]
    omega

theorem indexGuard_of_inRange {a : Int} (h0 : 0 ≤ a) (h1 : a < MAP_SIZE) :
    indexGuard a = true :=
  (indexGuard_iff a).2 ⟨by unfold MAP_SIZE at *; omega, h1⟩

theorem getPlatinumSource_inRange (m : Map) {a : Int} (h0 : 0 ≤ a) (h1 : a < MAP_SIZE) :
    m.getPlatinumSource a = .ok (m.platinumSource a) := by
  simp [Map.getPlatinumSource, subscript, indexGuard_of_inRange h0 h1, h0, h1]

theorem getCell_inRange (m : Map) {a : Int} (h0 : 0 ≤ a) (h1 : a < MAP_SIZE) :
    m.getCell a = .ok (m.cells a) := by
  simp [Map.getCell, subscript, indexGuard_of_inRange h0 h1, h0, h1]

theorem getNeighbors_inRange (m : Map) {a : Int} (h0 : 0 ≤ a) (h1 : a < MAP_SIZE) :
    m.getNeighbors a = .ok (m.neighbors a) := by
  simp [Map.getNeighbors, subscript, indexGuard_of_inRange h0 h1, h0, h1]

theorem modifyCell_inRange (m : Map) {a : Int} (f : Cell → Cell) (h0 : 0 ≤ a)
    (h1 : a < MAP_SIZE) :
    m.modifyCell a f = .ok { m with cells := Function.update m.cells a (f (m.cells a)) } := by
  simp [Map.modifyCell, subscriptModify, indexGuard_of_inRange h0 h1, h0, h1, Except.map]

/-! ## The scan -/

theorem scanBody_inRange (m : Map) (acc : Int × Int) {i : Int} (h0 : 0 ≤ i)
    (h1 : i < MAP_SIZE) :
    scanBody m acc i = .ok
      (if m.platinumSource i > acc.2 ∧ (m.cells i).owner = Cell.NEUTRAL
        then (i, m.platinumSource i) else acc) := by
  unfold scanBody
  rw [getPlatinumSource_inRange m h0 h1, getCell_inRange m h0 h1]
  by_cases hv : m.platinumSource i > acc.2 <;> by_cases ho : (m.cells i).owner = Cell.NEUTRAL <;>
    simp [hv, ho, bind, Except.bind, pure, Except.pure]

/-- What the scan has established after the first `n` zones. -/
theorem scan_prefix (m : Map) (r : Int) (n : Nat) (hn : (n : Int) ≤ MAP_SIZE) :
    ∃ b v, (List.range n).foldlM (fun acc (i : Nat) => scanBody m acc (i : Int)) (r, 0) = .ok (b, v) ∧
      (((∀ z : Int, 0 ≤ z → z < n → (m.cells z).owner = Cell.NEUTRAL →
            m.platinumSource z ≤ 0) ∧ b = r ∧ v = 0) ∨
       (0 ≤ b ∧ b < n ∧ (m.cells b).owner = Cell.NEUTRAL ∧ m.platinumSource b = v ∧ 0 < v ∧
        (∀ z : Int, 0 ≤ z → z < n → (m.cells z).owner = Cell.NEUTRAL →
            m.platinumSource z ≤ v) ∧
        (∀ z : Int, 0 ≤ z → z < n → (m.cells z).owner = Cell.NEUTRAL →
            m.platinumSource z = v → b ≤ z))) := by
  induction n with
  | zero =>
    refine ⟨r, 0, rfl, Or.inl ⟨?_, rfl, rfl⟩⟩
    intro z h0 h1
    simp at h1
    omega
  | succ n ih =>
    obtain ⟨b, v, hrun, hinv⟩ := ih (by push_cast at hn; omega)
    have hn0 : (0 : Int) ≤ (n : Int) := Int.ofNat_nonneg n
    have hn1 : (n : Int) < MAP_SIZE := by push_cast at hn; omega
    rw [List.range_succ, List.foldlM_append, hrun]
    simp only [bind, Except.bind, List.foldlM_cons, List.foldlM_nil, scanBody_inRange m _ hn0 hn1,
      pure, Except.pure]
    by_cases hc : m.platinumSource n > v ∧ (m.cells n).owner = Cell.NEUTRAL
    · refine ⟨n, m.platinumSource n, by simp [hc], Or.inr ⟨hn0, by push_cast; omega, hc.2, rfl, ?_, ?_, ?_⟩⟩
      · rcases hinv with ⟨_, _, hv⟩ | ⟨_, _, _, _, hv, _⟩ <;> omega
      · intro z h0 h1 hz
        rcases (by push_cast at h1; omega : z < n ∨ z = n) with h | h
        · rcases hinv with ⟨hall, _, hv⟩ | ⟨_, _, _, _, _, hall, _⟩
          · have := hall z h0 h hz; omega
          · have := hall z h0 h hz; omega
        · subst h; omega
      · intro z h0 h1 hz he
        rcases (by push_cast at h1; omega : z < n ∨ z = n) with h | h
        · rcases hinv with ⟨hall, _, hv⟩ | ⟨_, _, _, _, _, hall, _⟩
          · have := hall z h0 h hz; omega
          · have := hall z h0 h hz; omega
        · omega
    · refine ⟨b, v, by simp [hc], ?_⟩
      rcases hinv with ⟨hall, hb, hv⟩ | ⟨hb0, hb1, hbo, hbv, hv, hall, hmin⟩
      · refine Or.inl ⟨?_, hb, hv⟩
        intro z h0 h1 hz
        rcases (by push_cast at h1; omega : z < n ∨ z = n) with h | h
        · exact hall z h0 h hz
        · subst h
          by_contra hcon
          exact hc ⟨by omega, hz⟩
      · refine Or.inr ⟨hb0, by push_cast; omega, hbo, hbv, hv, ?_, ?_⟩
        · intro z h0 h1 hz
          rcases (by push_cast at h1; omega : z < n ∨ z = n) with h | h
          · exact hall z h0 h hz
          · subst h
            by_contra hcon
            exact hc ⟨by omega, hz⟩
        · intro z h0 h1 hz he
          rcases (by push_cast at h1; omega : z < n ∨ z = n) with h | h
          · exact hmin z h0 h hz he
          · omega

/-- The scan never fails and returns a selected zone. -/
theorem scanLoop_selected (m : Map) (r : Int) :
    ∃ b v, scanLoop m r = .ok (b, v) ∧ Selected m r b ∧ (b = r ∨ (0 ≤ b ∧ b < MAP_SIZE)) := by
  obtain ⟨b, v, hrun, hinv⟩ := scan_prefix m r MAP_SIZE.toNat (by decide)
  have e : ((MAP_SIZE.toNat : Nat) : Int) = MAP_SIZE := by decide
  rw [e] at hinv
  refine ⟨b, v, hrun, ?_, ?_⟩
  · rcases hinv with ⟨hall, hb, _⟩ | ⟨hb0, hb1, hbo, hbv, hv, hall, hmin⟩
    · refine Or.inr ⟨?_, hb⟩
      rintro z ⟨h0, h1, ho, hp⟩
      have := hall z h0 h1 ho
      omega
    · refine Or.inl ⟨⟨hb0, hb1, hbo, by omega⟩, ?_, ?_⟩
      · intro z h0 h1 ho
        rw [hbv]; exact hall z h0 h1 ho
      · intro z h0 h1 ho he
        exact hmin z h0 h1 ho (by omega)
  · rcases hinv with ⟨_, hb, _⟩ | ⟨hb0, hb1, _⟩
    · exact Or.inl hb
    · exact Or.inr ⟨hb0, hb1⟩

/-! ## One purchase and the whole loop -/

theorem acquisitionStep_inRange (myId : Int) (rnd : Nat → Int) (s : Machine)
    (hr : 0 ≤ rnd s.draws ∧ rnd s.draws ≤ MAP_SIZE - 1) :
    ∃ best, 0 ≤ best ∧ best < MAP_SIZE ∧ Selected s.map (rnd s.draws) best ∧
      acquisitionStep myId rnd s = .ok (s.bought myId best) := by
  obtain ⟨b, v, hscan, hsel, hb⟩ := scanLoop_selected s.map (rnd s.draws)
  have hb0 : 0 ≤ b := by rcases hb with h | h <;> omega
  have hb1 : b < MAP_SIZE := by rcases hb with h | h <;> omega
  refine ⟨b, hb0, hb1, hsel, ?_⟩
  unfold acquisitionStep randomNumber
  simp only [hscan, bind, Except.bind, modifyCell_inRange s.map _ hb0 hb1, pure, Except.pure]
  rfl

theorem acquisitionLoop_run (myId : Int) (rnd : Nat → Int) (hr : DrawsInRange rnd) :
    ∀ (fuel : Nat) (s : Machine), (s.platinum / POD_COST).toNat ≤ fuel →
      ∃ s', acquisitionLoop myId rnd fuel s = .ok s' ∧ Run myId rnd s s' := by
  intro fuel
  induction fuel with
  | zero =>
    intro s hf
    have hlt : s.platinum < POD_COST := by unfold POD_COST at *; omega
    exact ⟨s, by simp [acquisitionLoop, not_le.2 hlt], Run.stop s hlt⟩
  | succ fuel ih =>
    intro s hf
    by_cases hge : s.platinum ≥ POD_COST
    · obtain ⟨best, h0, h1, hsel, hstep⟩ := acquisitionStep_inRange myId rnd s (hr s.draws)
      obtain ⟨s', hloop, hrun⟩ := ih (s.bought myId best) (by
        show ((s.platinum - POD_COST) / POD_COST).toNat ≤ fuel
        unfold POD_COST at *; omega)
      refine ⟨s', ?_, Run.buy s s' best hge h0 h1 hsel hrun⟩
      simp only [acquisitionLoop, hge, if_true, hstep, bind, Except.bind, hloop]
    · exact ⟨s, by simp [acquisitionLoop, hge], Run.stop s (not_le.1 hge)⟩

theorem Out.ints_append (a b : List Out) : Out.ints (a ++ b) = Out.ints a ++ Out.ints b := by
  induction a with
  | nil => rfl
  | cons x a ih => cases x <;> simp [Out.ints, ih]

theorem commands_bought (myId : Int) (s : Machine) (best : Int) :
    (s.bought myId best).commands = s.commands ++ [best] := by
  simp [Machine.commands, Machine.bought, Out.ints_append, Out.ints]

/-- Currency and command count along a run of the loop. -/
theorem run_count {myId : Int} {rnd : Nat → Int} {s s' : Machine} (h : Run myId rnd s s') :
    ∃ zs : List Int, s'.commands = s.commands ++ zs ∧
      s'.platinum = s.platinum - POD_COST * zs.length ∧ s'.platinum < POD_COST ∧
      (s.platinum < POD_COST → zs = []) ∧ (0 ≤ s.platinum → 0 ≤ s'.platinum) := by
  induction h with
  | stop s hlt => exact ⟨[], by simp, by simp, hlt, fun _ => rfl, id⟩
  | buy s s' best hge h0 h1 hsel _ ih =>
    obtain ⟨zs, hc, hp, hlt, _, hnn⟩ := ih
    refine ⟨best :: zs, ?_, ?_, hlt, ?_, ?_⟩
    · rw [hc, commands_bought]; simp
    · rw [hp]; simp only [Machine.bought, List.length_cons]; push_cast; ring
    · intro h; omega
    · intro _; apply hnn; simp only [Machine.bought]; unfold POD_COST at *; omega

theorem drawsInRange_const (r : Int) (h0 : 0 ≤ r) (h1 : r ≤ MAP_SIZE - 1) :
    DrawsInRange (constDraw r) :=
  fun _ => ⟨h0, h1⟩

/-! ## C2: the index guard -/

/-- C2 (code defect): the asserted expression `(a % MAP_SIZE) == a` is true for
the index `-1`, which lies outside `[0, MAP_SIZE)`; `getCell(-1)` therefore gets
past its assertion and subscripts `cells` out of bounds. -/
theorem indexGuard_accepts_minus_one :
    indexGuard (-1) = true ∧ ¬ (0 ≤ (-1 : Int) ∧ (-1 : Int) < MAP_SIZE) ∧
      ∀ m : Map, m.getCell (-1) = .error Fault.outOfBounds := by
  refine ⟨by decide, by decide, ?_⟩
  intro m
  simp [Map.getCell, subscript, show indexGuard (-1) = true by decide]

/-! ## C4, C5: currency and command count -/

/-- C4: started with platinum `p ≥ 0`, the acquisition loop ends (given fuel for
`p / POD_COST` iterations) having written `n` commands with `n * POD_COST ≤ p`,
and the platinum left is `p - n * POD_COST`, which lies in `[0, POD_COST)`. -/
theorem acquisition_currency_invariant (myId : Int) (rnd : Nat → Int) (map : Map) (p : Int)
    (fuel : Nat) (hp : 0 ≤ p) (hr : DrawsInRange rnd) (hf : (p / POD_COST).toNat ≤ fuel) :
    ∃ s', acquisitionLoop myId rnd fuel (Machine.start p map) = .ok s' ∧
      (s'.commands.length : Int) * POD_COST ≤ p ∧
      s'.platinum = p - (s'.commands.length : Int) * POD_COST ∧
      0 ≤ s'.platinum ∧ s'.platinum < POD_COST := by
  obtain ⟨s', hloop, hrun⟩ := acquisitionLoop_run myId rnd hr fuel (Machine.start p map) hf
  obtain ⟨zs, hc, hpl, hlt, _, hnn⟩ := run_count hrun
  have hc' : s'.commands = zs := by simpa [Machine.start, Machine.commands, Out.ints] using hc
  have h0 : 0 ≤ s'.platinum := hnn hp
  have hpl' : s'.platinum = p - POD_COST * (zs.length : Int) := hpl
  refine ⟨s', hloop, ?_, ?_, h0, hlt⟩
  · rw [hc']; unfold POD_COST at *; omega
  · rw [hc', hpl']; ring

theorem acquisition_currency_invariant_witness :
    (0 : Int) ≤ 45 ∧ DrawsInRange (constDraw 7) ∧ ((45 : Int) / POD_COST).toNat ≤ 2 ∧
    ∃ s', acquisitionLoop 0 (constDraw 7) 2 (Machine.start 45 yieldsMap) = .ok s' ∧
      (s'.commands.length : Int) * POD_COST ≤ 45 ∧
      s'.platinum = 45 - (s'.commands.length : Int) * POD_COST ∧
      0 ≤ s'.platinum ∧ s'.platinum < POD_COST :=
  ⟨by decide, drawsInRange_const 7 (by decide) (by decide), by decide,
    acquisition_currency_invariant 0 (constDraw 7) yieldsMap 45 2 (by decide)
      (drawsInRange_const 7 (by decide) (by decide)) (by decide)⟩

/-- C5: for every initial platinum `p` (negative included) and every map, the
acquisition loop ends within `p / POD_COST` iterations; it writes no command
when `p < POD_COST` and exactly `⌊p / POD_COST⌋` commands when `p ≥ POD_COST`. -/
theorem acquisition_terminates_with_count (myId : Int) (rnd : Nat → Int) (map : Map) (p : Int)
    (fuel : Nat) (hr : DrawsInRange rnd) (hf : (p / POD_COST).toNat ≤ fuel) :
    ∃ s', acquisitionLoop myId rnd fuel (Machine.start p map) = .ok s' ∧
      (p < POD_COST → s'.commands = []) ∧
      (POD_COST ≤ p → (s'.commands.length : Int) = p / POD_COST) := by
  obtain ⟨s', hloop, hrun⟩ := acquisitionLoop_run myId rnd hr fuel (Machine.start p map) hf
  obtain ⟨zs, hc, hpl, hlt, hnil, hnn⟩ := run_count hrun
  have hc' : s'.commands = zs := by simpa [Machine.start, Machine.commands, Out.ints] using hc
  have hpl' : s'.platinum = p - POD_COST * (zs.length : Int) := hpl
  refine ⟨s', hloop, ?_, ?_⟩
  · intro h; rw [hc']; exact hnil h
  · intro h
    have h0 : 0 ≤ s'.platinum := hnn (by show (0 : Int) ≤ p; unfold POD_COST at h; omega)
    rw [hc']; unfold POD_COST at *; omega

theorem acquisition_terminates_with_count_witness :
    DrawsInRange (constDraw 7) ∧ ((85 : Int) / POD_COST).toNat ≤ 4 ∧
    ∃ s', acquisitionLoop 0 (constDraw 7) 4 (Machine.start 85 occupiedMap) = .ok s' ∧
      ((85 : Int) < POD_COST → s'.commands = []) ∧
      (POD_COST ≤ (85 : Int) → (s'.commands.length : Int) = 85 / POD_COST) :=
  ⟨drawsInRange_const 7 (by decide) (by decide), by decide,
    acquisition_terminates_with_count 0 (constDraw 7) occupiedMap 85 4
      (drawsInRange_const 7 (by decide) (by decide)) (by decide)⟩

/-! ## C3: greedy selection -/

theorem acquisitionStep_of_scan (myId : Int) (rnd : Nat → Int) (s : Machine) {b v : Int}
    (hscan : scanLoop s.map (rnd s.draws) = .ok (b, v)) (hb0 : 0 ≤ b) (hb1 : b < MAP_SIZE) :
    acquisitionStep myId rnd s = .ok (s.bought myId b) := by
  unfold acquisitionStep randomNumber
  simp only [hscan, bind, Except.bind, modifyCell_inRange s.map _ hb0 hb1, pure, Except.pure]
  rfl

/-- C3: in an iteration in which some zone is Neutral with yield `> 0`, whatever
the random seed, the scan ends with a zone `best` that is Neutral, whose yield
is the greatest among the Neutral zones, and that has the least index among the
Neutral zones of that yield; the iteration writes the command for `best`. -/
theorem greedy_selection_lowest_index (myId : Int) (rnd : Nat → Int) (s : Machine)
    (h : ∃ z, 0 ≤ z ∧ z < MAP_SIZE ∧ (s.map.cells z).owner = Cell.NEUTRAL ∧
      0 < s.map.platinumSource z) :
    ∃ best bestValue s', scanLoop s.map (rnd s.draws) = .ok (best, bestValue) ∧
      acquisitionStep myId rnd s = .ok s' ∧ s'.commands = s.commands ++ [best] ∧
      0 ≤ best ∧ best < MAP_SIZE ∧ (s.map.cells best).owner = Cell.NEUTRAL ∧
      (∀ z, 0 ≤ z → z < MAP_SIZE → (s.map.cells z).owner = Cell.NEUTRAL →
        s.map.platinumSource z ≤ s.map.platinumSource best) ∧
      (∀ z, 0 ≤ z → z < MAP_SIZE → (s.map.cells z).owner = Cell.NEUTRAL →
        s.map.platinumSource z = s.map.platinumSource best → best ≤ z) := by
  obtain ⟨b, v, hscan, hsel, _⟩ := scanLoop_selected s.map (rnd s.draws)
  rcases hsel with ⟨⟨hb0, hb1, hbo, _⟩, hmax, hmin⟩ | ⟨hno, _⟩
  · exact ⟨b, v, s.bought myId b, hscan, acquisitionStep_of_scan myId rnd s hscan hb0 hb1,
      commands_bought myId s b, hb0, hb1, hbo, hmax, hmin⟩
  · obtain ⟨z, hz⟩ := h
    exact absurd hz (hno z)

theorem greedy_selection_lowest_index_witness :
    (∃ z, 0 ≤ z ∧ z < MAP_SIZE ∧ ((Machine.start 45 yieldsMap).map.cells z).owner = Cell.NEUTRAL ∧
      0 < (Machine.start 45 yieldsMap).map.platinumSource z) ∧
    ∃ best bestValue s',
      scanLoop (Machine.start 45 yieldsMap).map (constDraw 153 (Machine.start 45 yieldsMap).draws)
        = .ok (best, bestValue) ∧
      acquisitionStep 0 (constDraw 153) (Machine.start 45 yieldsMap) = .ok s' ∧
      s'.commands = (Machine.start 45 yieldsMap).commands ++ [best] ∧
      0 ≤ best ∧ best < MAP_SIZE ∧
      ((Machine.start 45 yieldsMap).map.cells best).owner = Cell.NEUTRAL ∧
      (∀ z, 0 ≤ z → z < MAP_SIZE → ((Machine.start 45 yieldsMap).map.cells z).owner = Cell.NEUTRAL →
        (Machine.start 45 yieldsMap).map.platinumSource z
          ≤ (Machine.start 45 yieldsMap).map.platinumSource best) ∧
      (∀ z, 0 ≤ z → z < MAP_SIZE → ((Machine.start 45 yieldsMap).map.cells z).owner = Cell.NEUTRAL →
        (Machine.start 45 yieldsMap).map.platinumSource z
          = (Machine.start 45 yieldsMap).map.platinumSource best → best ≤ z) :=
  ⟨⟨0, by decide⟩,
    greedy_selection_lowest_index 0 (constDraw 153) (Machine.start 45 yieldsMap) ⟨0, by decide⟩⟩

/-! ## Purchases with `myId ≠ NEUTRAL` -/

theorem candidate_bought {myId : Int} (hmy : myId ≠ Cell.NEUTRAL) (s : Machine) (best z : Int) :
    Candidate (s.bought myId best).map z ↔ Candidate s.map z ∧ z ≠ best := by
  unfold Candidate Machine.bought
  by_cases hz : z = best
  · subst hz
    simp [hmy]
  · simp [Function.update_noteq hz, hz]

theorem selected_candidate {map : Map} {r best : Int} (hsel : Selected map r best)
    (hex : ∃ z, Candidate map z) :
    Candidate map best ∧
      (∀ z, Candidate map z → map.platinumSource z ≤ map.platinumSource best) ∧
      (∀ z, Candidate map z → map.platinumSource z = map.platinumSource best → best ≤ z) := by
  rcases hsel with ⟨hc, hmax, hmin⟩ | ⟨hno, _⟩
  · exact ⟨hc, fun z hz => hmax z hz.1 hz.2.1 hz.2.2.1, fun z hz => hmin z hz.1 hz.2.1 hz.2.2.1⟩
  · obtain ⟨z, hz⟩ := hex
    exact absurd hz (hno z)

theorem platinum_bought_count (myId : Int) (s : Machine) (best : Int)
    (hge : POD_COST ≤ s.platinum) :
    ((s.bought myId best).platinum / POD_COST).toNat + 1 = (s.platinum / POD_COST).toNat := by
  show ((s.platinum - POD_COST) / POD_COST).toNat + 1 = (s.platinum / POD_COST).toNat
  unfold POD_COST at *
  omega

/-- As long as candidates are left, a run writes distinct zones. -/
theorem run_nodup {myId : Int} {rnd : Nat → Int} {s s' : Machine} (h : Run myId rnd s s')
    (hmy : myId ≠ Cell.NEUTRAL) :
    ∀ C : Finset Int, (∀ z, z ∈ C ↔ Candidate s.map z) →
      ∃ zs : List Int, s'.commands = s.commands ++ zs ∧ (zs.take C.card).Nodup ∧
        ∀ z ∈ zs.take C.card, Candidate s.map z := by
  induction h with
  | stop s hlt => exact fun _ _ => ⟨[], by simp, by simp, by simp⟩
  | buy s s' best hge h0 h1 hsel _ ih =>
    intro C hC
    obtain ⟨zs, hc, hnd, hall⟩ := ih (C.erase best) (by
      intro z
      rw [candidate_bought hmy s best z, ← hC z, Finset.mem_erase]
      exact And.comm)
    refine ⟨best :: zs, by rw [hc, commands_bought]; simp, ?_⟩
    rcases Nat.eq_zero_or_pos C.card with h0 | hpos
    · rw [h0]; simp
    · obtain ⟨w, hw⟩ := Finset.card_pos.1 hpos
      obtain ⟨hbest, _, _⟩ := selected_candidate hsel ⟨w, (hC w).1 hw⟩
      have hcard : C.card = (C.erase best).card + 1 := by
        rw [Finset.card_erase_of_mem ((hC best).2 hbest)]; omega
      rw [hcard, List.take_succ_cons]
      refine ⟨List.nodup_cons.2 ⟨?_, hnd⟩, ?_⟩
      · intro hmem
        exact ((candidate_bought hmy s best best).1 (hall best hmem)).2 rfl
      · intro z hz
        rcases List.mem_cons.1 hz with h | h
        · rw [h]; exact hbest
        · exact ((candidate_bought hmy s best z).1 (hall z h)).1

/-- A run buys the candidates in the order of the greedy choice. -/
theorem run_greedy_order {myId : Int} {rnd : Nat → Int} {s s' : Machine}
    (h : Run myId rnd s s') (hmy : myId ≠ Cell.NEUTRAL) :
    ∀ P : List Int, (∀ z, z ∈ P ↔ Candidate s.map z) → P.Pairwise (GreedyBefore s.map) →
      ∃ zs : List Int, s'.commands = s.commands ++ zs ∧
        zs.take (min zs.length P.length) = P.take (min zs.length P.length) := by
  induction h with
  | stop s hlt => exact fun _ _ _ => ⟨[], by simp, by simp⟩
  | buy s s' best hge h0 h1 hsel _ ih =>
    intro P hmem hsorted
    cases P with
    | nil =>
      obtain ⟨zs, hc, _⟩ := ih [] (by
        intro z
        simp only [List.not_mem_nil, false_iff]
        intro hz
        exact (List.not_mem_nil z) ((hmem z).2 ((candidate_bought hmy s best z).1 hz).1))
        List.Pairwise.nil
      exact ⟨best :: zs, by rw [hc, commands_bought]; simp, by simp⟩
    | cons a P =>
      have hacand : Candidate s.map a := (hmem a).1 (List.mem_cons_self a P)
      obtain ⟨hbest, hmax, hmin⟩ := selected_candidate hsel ⟨a, hacand⟩
      have hrel : ∀ z ∈ P, GreedyBefore s.map a z := (List.pairwise_cons.1 hsorted).1
      have hba : best = a := by
        rcases List.mem_cons.1 ((hmem best).2 hbest) with h | h
        · exact h
        · have h1 := hmax a hacand
          rcases hrel best h with hlt | ⟨heq, hlt⟩
          · omega
          · have := hmin a hacand heq; omega
      subst hba
      obtain ⟨zs, hc, htake⟩ := ih P (by
        intro z
        rw [candidate_bought hmy s best z, ← hmem z]
        constructor
        · intro hz
          refine ⟨List.mem_cons_of_mem _ hz, ?_⟩
          rintro rfl
          rcases hrel z hz with hlt | ⟨_, hlt⟩ <;> omega
        · rintro ⟨hz, hne⟩
          rcases List.mem_cons.1 hz with h | h
          · exact absurd h hne
          · exact h)
        (List.pairwise_cons.1 hsorted).2
      refine ⟨best :: zs, by rw [hc, commands_bought]; simp, ?_⟩
      simp only [List.length_cons, Nat.succ_min_succ, List.take_succ_cons, htake]

/-! ## C1: duplicate acquisitions -/

/-- C1 as stated fails: with platinum `40` and draws in range, a pass on a map
without Neutral zones writes the drawn zone `7` twice (player `0`), and with
`myId = -1` a pass on a map whose best Neutral zone is `0` writes zone `0` twice. -/
theorem duplicate_acquisition_counterexample :
    DrawsInRange (constDraw 7) ∧
    (acquisitionLoop 0 (constDraw 7) 2 (Machine.start 40 occupiedMap)).toOption.map
      Machine.commands = some [7, 7] ∧
    (acquisitionLoop (-1) (constDraw 7) 2 (Machine.start 40 yieldsMap)).toOption.map
      Machine.commands = some [0, 0] ∧
    ¬ ([7, 7] : List Int).Nodup ∧ ¬ ([0, 0] : List Int).Nodup := by
  refine ⟨drawsInRange_const 7 (by decide) (by decide), ?_, ?_, by decide, by decide⟩
  · set_option maxRecDepth 1000000 in decide
  · set_option maxRecDepth 1000000 in decide

/-- C1 (amended): let `myId ≠ NEUTRAL` and let `c` be the number of zones that
are Neutral with yield `> 0` at the start of the pass.  For all draws in range,
the first `c` zone indices written as acquisition commands by the pass (those
of the iterations that do not take the random fallback) are pairwise distinct;
so all of them are when `⌊p / POD_COST⌋ ≤ c`. -/
theorem no_duplicate_acquisition_while_candidates (myId : Int) (rnd : Nat → Int) (map : Map)
    (p : Int) (fuel : Nat) (C : Finset Int) (hmy : myId ≠ Cell.NEUTRAL)
    (hr : DrawsInRange rnd) (hf : (p / POD_COST).toNat ≤ fuel)
    (hC : ∀ z, z ∈ C ↔ Candidate map z) :
    ∃ s', acquisitionLoop myId rnd fuel (Machine.start p map) = .ok s' ∧
      (s'.commands.take C.card).Nodup ∧
      ((p / POD_COST).toNat ≤ C.card → s'.commands.Nodup) := by
  obtain ⟨s', hloop, hrun⟩ := acquisitionLoop_run myId rnd hr fuel (Machine.start p map) hf
  obtain ⟨zs, hc, hnd, _⟩ := run_nodup hrun hmy C hC
  obtain ⟨zs', hc2, hpl, hlt, hnil, hnn⟩ := run_count hrun
  have hc' : s'.commands = zs := by simpa [Machine.start, Machine.commands, Out.ints] using hc
  have hc2' : s'.commands = zs' := by simpa [Machine.start, Machine.commands, Out.ints] using hc2
  have hzz : zs' = zs := by rw [← hc2', hc']
  subst hzz
  have hpl' : s'.platinum = p - POD_COST * (zs'.length : Int) := hpl
  have hlen : zs'.length = (p / POD_COST).toNat := by
    by_cases h : p < POD_COST
    · rw [hnil h]; unfold POD_COST at *; simp; omega
    · have h0 : 0 ≤ s'.platinum := hnn (by show (0 : Int) ≤ p; unfold POD_COST at h; omega)
      unfold POD_COST at *; omega
  refine ⟨s', hloop, by rw [hc']; exact hnd, ?_⟩
  intro hk
  rw [hc']
  rw [List.take_of_length_le (by omega)] at hnd
  exact hnd

theorem no_duplicate_acquisition_while_candidates_witness :
    (0 : Int) ≠ Cell.NEUTRAL ∧ DrawsInRange (constDraw 7) ∧ ((45 : Int) / POD_COST).toNat ≤ 2 ∧
    (∀ z, z ∈ ({0, 1} : Finset Int) ↔ Candidate yieldsMap z) ∧
    ∃ s', acquisitionLoop 0 (constDraw 7) 2 (Machine.start 45 yieldsMap) = .ok s' ∧
      (s'.commands.take ({0, 1} : Finset Int).card).Nodup ∧
      (((45 : Int) / POD_COST).toNat ≤ ({0, 1} : Finset Int).card → s'.commands.Nodup) :=
  have hC : ∀ z, z ∈ ({0, 1} : Finset Int) ↔ Candidate yieldsMap z := by
    intro z
    unfold Candidate yieldsMap Map.initial Cell.new MAP_SIZE
    by_cases h0 : z = 0
    · subst h0; simp
    · by_cases h1 : z = 1
      · subst h1; simp
      · simp [h0, h1]
  ⟨by decide, drawsInRange_const 7 (by decide) (by decide), by decide, hC,
    no_duplicate_acquisition_while_candidates 0 (constDraw 7) yieldsMap 45 2 {0, 1} (by decide)
      (drawsInRange_const 7 (by decide) (by decide)) (by decide) hC⟩

/-! ## C8: order of a whole pass -/

/-- C8: let `myId ≠ NEUTRAL` and let `P` list the zones that are Neutral with
yield `> 0` at the start of the pass, by yield descending and then by index
ascending.  A pass with initial platinum `p` writes `k = ⌊p / POD_COST⌋` commands
(none for `p < 0`), the first `min k |P|` of which are the first `min k |P|`
elements of `P` in that order, and leaves `p - POD_COST * k` platinum. -/
theorem greedy_acquisition_order (myId : Int) (rnd : Nat → Int) (map : Map) (p : Int)
    (fuel : Nat) (P : List Int) (hmy : myId ≠ Cell.NEUTRAL) (hr : DrawsInRange rnd)
    (hf : (p / POD_COST).toNat ≤ fuel)
    (hmem : ∀ z, z ∈ P ↔ Candidate map z) (hsorted : P.Pairwise (GreedyBefore map)) :
    ∃ s', acquisitionLoop myId rnd fuel (Machine.start p map) = .ok s' ∧
      s'.commands.length = (p / POD_COST).toNat ∧
      s'.commands.take (min (p / POD_COST).toNat P.length)
        = P.take (min (p / POD_COST).toNat P.length) ∧
      s'.platinum = p - POD_COST * ((p / POD_COST).toNat : Int) := by
  obtain ⟨s', hloop, hrun⟩ := acquisitionLoop_run myId rnd hr fuel (Machine.start p map) hf
  obtain ⟨zs, hc, htake⟩ := run_greedy_order hrun hmy P hmem hsorted
  obtain ⟨zs', hc2, hpl, hlt, hnil, hnn⟩ := run_count hrun
  have hc' : s'.commands = zs := by simpa [Machine.start, Machine.commands, Out.ints] using hc
  have hc2' : s'.commands = zs' := by simpa [Machine.start, Machine.commands, Out.ints] using hc2
  have hzz : zs' = zs := by rw [← hc2', hc']
  subst hzz
  have hpl' : s'.platinum = p - POD_COST * (zs'.length : Int) := hpl
  have hlen : zs'.length = (p / POD_COST).toNat := by
    by_cases h : p < POD_COST
    · rw [hnil h]; unfold POD_COST at *; simp; omega
    · have h0 : 0 ≤ s'.platinum := hnn (by show (0 : Int) ≤ p; unfold POD_COST at h; omega)
      unfold POD_COST at *; omega
  refine ⟨s', hloop, by rw [hc', hlen], ?_, by rw [hpl', hlen]⟩
  rw [hc', ← hlen]; exact htake

theorem greedy_acquisition_order_witness :
    (0 : Int) ≠ Cell.NEUTRAL ∧ DrawsInRange (constDraw 7) ∧ ((45 : Int) / POD_COST).toNat ≤ 2 ∧
    (∀ z, z ∈ ([0, 1] : List Int) ↔ Candidate yieldsMap z) ∧
    ([0, 1] : List Int).Pairwise (GreedyBefore yieldsMap) ∧
    ∃ s', acquisitionLoop 0 (constDraw 7) 2 (Machine.start 45 yieldsMap) = .ok s' ∧
      s'.commands.length = ((45 : Int) / POD_COST).toNat ∧
      s'.commands.take (min ((45 : Int) / POD_COST).toNat ([0, 1] : List Int).length)
        = ([0, 1] : List Int).take (min ((45 : Int) / POD_COST).toNat ([0, 1] : List Int).length) ∧
      s'.platinum = 45 - POD_COST * ((((45 : Int) / POD_COST).toNat : Nat) : Int) :=
  have hmem : ∀ z, z ∈ ([0, 1] : List Int) ↔ Candidate yieldsMap z := by
    intro z
    unfold Candidate yieldsMap Map.initial Cell.new MAP_SIZE
    by_cases h0 : z = 0
    · subst h0; simp
    · by_cases h1 : z = 1
      · subst h1; simp
      · simp [h0, h1]
  have hsorted : ([0, 1] : List Int).Pairwise (GreedyBefore yieldsMap) := by
    simp [GreedyBefore, yieldsMap]
  ⟨by decide, drawsInRange_const 7 (by decide) (by decide), by decide, hmem, hsorted,
    greedy_acquisition_order 0 (constDraw 7) yieldsMap 45 2 [0, 1] (by decide)
      (drawsInRange_const 7 (by decide) (by decide)) (by decide) hmem hsorted⟩

/-! ## C9: the random fallback -/

theorem fallback_step (myId : Int) (rnd : Nat → Int) (s : Machine)
    (hno : ∀ z, ¬ Candidate s.map z)
    (hr : 0 ≤ rnd s.draws ∧ rnd s.draws ≤ MAP_SIZE - 1) :
    ∃ v, scanLoop s.map (rnd s.draws) = .ok (rnd s.draws, v) ∧
      acquisitionStep myId rnd s = .ok (s.bought myId (rnd s.draws)) := by
  obtain ⟨b, v, hscan, hsel, _⟩ := scanLoop_selected s.map (rnd s.draws)
  have hb : b = rnd s.draws := by
    rcases hsel with ⟨hc, _⟩ | ⟨_, hb⟩
    · exact absurd hc (hno b)
    · exact hb
  subst hb
  exact ⟨v, hscan, acquisitionStep_of_scan myId rnd s hscan hr.1 (by omega)⟩

theorem acquisitionLoop_succ_of_ge (myId : Int) (rnd : Nat → Int) (fuel : Nat)
    {s s1 : Machine} (hge : POD_COST ≤ s.platinum)
    (hstep : acquisitionStep myId rnd s = .ok s1) :
    acquisitionLoop myId rnd (fuel + 1) s = acquisitionLoop myId rnd fuel s1 := by
  simp only [acquisitionLoop, ge_iff_le, if_pos hge, hstep, bind, Except.bind]

theorem acquisitionLoop_of_lt (myId : Int) (rnd : Nat → Int) (fuel : Nat) (s : Machine)
    (hlt : s.platinum < POD_COST) :
    acquisitionLoop myId rnd fuel s = .ok s := by
  cases fuel <;> simp [acquisitionLoop, not_le.2 hlt]

theorem occupiedMap_no_candidate (z : Int) : ¬ Candidate occupiedMap z := by
  rintro ⟨_, _, ho, _⟩
  exact (by decide : ¬ ((1 : Int) = -1)) ho

/-- C9: in an iteration in which no zone is Neutral with yield `> 0`, the scan
leaves `best` equal to the draw `r` (in `[0, MAP_SIZE - 1]`) whoever owns
zone `r`; the command for `r` is written, platinum drops by `POD_COST` and zone
`r` gets owner `myId`.  And there is an input (platinum `20`, every zone owned by
player `1`, player `0` drawing `7`) on which the pass writes exactly one
command, for a zone that is not Neutral. -/
theorem random_fallback_selects_draw (myId : Int) (rnd : Nat → Int) (s : Machine)
    (hno : ∀ z, 0 ≤ z → z < MAP_SIZE →
      ¬ ((s.map.cells z).owner = Cell.NEUTRAL ∧ 0 < s.map.platinumSource z))
    (hr : 0 ≤ rnd s.draws ∧ rnd s.draws ≤ MAP_SIZE - 1) :
    (∃ bestValue s', scanLoop s.map (rnd s.draws) = .ok (rnd s.draws, bestValue) ∧
      acquisitionStep myId rnd s = .ok s' ∧
      s'.commands = s.commands ++ [rnd s.draws] ∧
      s'.platinum = s.platinum - POD_COST ∧
      (s'.map.cells (rnd s.draws)).owner = myId) ∧
    (∃ (myId' : Int) (rnd' : Nat → Int) (map : Map) (s' : Machine) (z : Int),
      DrawsInRange rnd' ∧
      acquisitionLoop myId' rnd' 1 (Machine.start 20 map) = .ok s' ∧
      s'.commands = [z] ∧ (map.cells z).owner ≠ Cell.NEUTRAL ∧ (map.cells z).owner ≠ myId') := by
  constructor
  · obtain ⟨v, hscan, hstep⟩ := fallback_step myId rnd s
      (fun z hz => hno z hz.1 hz.2.1 ⟨hz.2.2.1, hz.2.2.2⟩) hr
    exact ⟨v, s.bought myId (rnd s.draws), hscan, hstep, commands_bought myId s _, rfl,
      by simp [Machine.bought]⟩
  · obtain ⟨v, _, hstep⟩ := fallback_step 0 (constDraw 7) (Machine.start 20 occupiedMap)
      occupiedMap_no_candidate (by decide)
    refine ⟨0, constDraw 7, occupiedMap, (Machine.start 20 occupiedMap).bought 0 7, 7,
      drawsInRange_const 7 (by decide) (by decide), ?_, ?_, by decide, by decide⟩
    · rw [acquisitionLoop_succ_of_ge 0 (constDraw 7) 0 (by decide) hstep]
      exact acquisitionLoop_of_lt 0 (constDraw 7) 0 _ (by decide)
    · rw [commands_bought]; rfl

theorem random_fallback_selects_draw_witness :
    (∀ z, 0 ≤ z → z < MAP_SIZE →
      ¬ (((Machine.start 20 occupiedMap).map.cells z).owner = Cell.NEUTRAL ∧
        0 < (Machine.start 20 occupiedMap).map.platinumSource z)) ∧
    (0 ≤ constDraw 7 (Machine.start 20 occupiedMap).draws ∧
      constDraw 7 (Machine.start 20 occupiedMap).draws ≤ MAP_SIZE - 1) ∧
    ∃ bestValue s',
      scanLoop (Machine.start 20 occupiedMap).map (constDraw 7 (Machine.start 20 occupiedMap).draws)
        = .ok (constDraw 7 (Machine.start 20 occupiedMap).draws, bestValue) ∧
      acquisitionStep 0 (constDraw 7) (Machine.start 20 occupiedMap) = .ok s' ∧
      s'.commands = (Machine.start 20 occupiedMap).commands
        ++ [constDraw 7 (Machine.start 20 occupiedMap).draws] ∧
      s'.platinum = (Machine.start 20 occupiedMap).platinum - POD_COST ∧
      (s'.map.cells (constDraw 7 (Machine.start 20 occupiedMap).draws)).owner = 0 :=
  have hno : ∀ z, 0 ≤ z → z < MAP_SIZE →
      ¬ (((Machine.start 20 occupiedMap).map.cells z).owner = Cell.NEUTRAL ∧
        0 < (Machine.start 20 occupiedMap).map.platinumSource z) :=
    fun _ _ _ h => (by decide : ¬ ((1 : Int) = -1)) h.1
  ⟨hno, by decide,
    (random_fallback_selects_draw 0 (constDraw 7) (Machine.start 20 occupiedMap) hno
      (by decide)).1⟩

/-! ## C6, C7: links and neighbor lists -/

theorem addLink_inRange (m : Map) {a b : Int} (ha0 : 0 ≤ a) (ha1 : a < MAP_SIZE)
    (hb0 : 0 ≤ b) (hb1 : b < MAP_SIZE) :
    ∃ m', m.addLink a b = .ok m' ∧ m'.platinumSource = m.platinumSource ∧
      m'.cells = m.cells ∧
      ∀ z, m'.neighbors z = m.neighbors z ++ appendedTo [(a, b)] z := by
  have hn1 : ∃ n1, n1 = Function.update m.neighbors a (m.neighbors a ++ [b]) := ⟨_, rfl⟩
  obtain ⟨n1, hn1⟩ := hn1
  refine ⟨{ m with neighbors := (Function.update n1 b (n1 b ++ [a])) }, ?_, rfl, rfl, ?_⟩
  all_goals subst hn1
  · simp [Map.addLink, subscriptModify, indexGuard_of_inRange ha0 ha1,
      indexGuard_of_inRange hb0 hb1, ha0, ha1, hb0, hb1, bind, Except.bind, pure, Except.pure]
  · intro z
    by_cases hzb : z = b <;> by_cases hza : z = a
    · subst hzb; subst hza; simp [appendedTo]
    · subst hzb
      simp [appendedTo, Function.update_noteq hza, Ne.symm hza]
    · subst hza
      simp [appendedTo, Function.update_noteq hzb, Ne.symm hzb]
    · simp [appendedTo, Function.update_noteq hzb, Function.update_noteq hza, Ne.symm hzb,
        Ne.symm hza]

theorem appendedTo_cons (l : Int × Int) (rest : List (Int × Int)) (z : Int) :
    appendedTo (l :: rest) z = appendedTo [l] z ++ appendedTo rest z := by
  simp [appendedTo]

theorem addLinks_inRange (links : List (Int × Int)) :
    ∀ m : Map, (∀ l ∈ links, 0 ≤ l.1 ∧ l.1 < MAP_SIZE ∧ 0 ≤ l.2 ∧ l.2 < MAP_SIZE) →
      ∃ m', m.addLinks links = .ok m' ∧ m'.platinumSource = m.platinumSource ∧
        m'.cells = m.cells ∧ ∀ z, m'.neighbors z = m.neighbors z ++ appendedTo links z := by
  induction links with
  | nil =>
    intro m _
    exact ⟨m, rfl, rfl, rfl, by simp [appendedTo]⟩
  | cons l rest ih =>
    intro m h
    obtain ⟨ha0, ha1, hb0, hb1⟩ := h l (List.mem_cons_self l rest)
    obtain ⟨m1, h1, hp1, hc1, hn1⟩ := addLink_inRange m ha0 ha1 hb0 hb1
    obtain ⟨m2, h2, hp2, hc2, hn2⟩ := ih m1 (fun x hx => h x (List.mem_cons_of_mem l hx))
    refine ⟨m2, ?_, hp2.trans hp1, hc2.trans hc1, ?_⟩
    · simp only [Map.addLinks, List.foldlM_cons, h1, bind, Except.bind]
      exact h2
    · intro z
      rw [hn2 z, hn1 z, appendedTo_cons l rest z, List.append_assoc]

theorem mem_appendedTo {links : List (Int × Int)} {a b : Int} (h : (a, b) ∈ links) :
    b ∈ appendedTo links a ∧ a ∈ appendedTo links b := by
  induction links with
  | nil => exact absurd h (List.not_mem_nil _)
  | cons l rest ih =>
    rw [appendedTo_cons l rest a, appendedTo_cons l rest b]
    rcases List.mem_cons.1 h with h | h
    · subst h
      constructor <;> apply List.mem_append_left <;> simp [appendedTo]
    · exact ⟨List.mem_append_right _ (ih h).1, List.mem_append_right _ (ih h).2⟩

theorem count_appendedTo (links : List (Int × Int)) {x y : Int} (hxy : x ≠ y) :
    (appendedTo links x).count y = (appendedTo links y).count x := by
  induction links with
  | nil => rfl
  | cons l rest ih =>
    rw [appendedTo_cons l rest x, appendedTo_cons l rest y, List.count_append, List.count_append,
      ih]
    congr 1
    obtain ⟨a, b⟩ := l
    by_cases hax : a = x <;> by_cases hbx : b = x <;> by_cases hay : a = y <;>
      by_cases hby : b = y <;>
      simp [appendedTo, hax, hbx, hay, hby, hxy, Ne.symm hxy, List.count_cons, List.count_nil]

theorem appendedTo_eq_otherEndpoints (links : List (Int × Int)) (z : Int)
    (h : ∀ l ∈ links, l.1 ≠ l.2) : appendedTo links z = otherEndpoints links z := by
  induction links with
  | nil => rfl
  | cons l rest ih =>
    have hl := h l (List.mem_cons_self l rest)
    have ih' := ih (fun x hx => h x (List.mem_cons_of_mem l hx))
    unfold otherEndpoints at ih' ⊢
    by_cases h1 : l.1 = z
    · have h2 : ¬ l.2 = z := fun h2 => hl (h1.trans h2.symm)
      simp [appendedTo, List.filterMap_cons, h1, h2, ih']
    · by_cases h2 : l.2 = z
      · simp [appendedTo, List.filterMap_cons, h1, h2, ih']
      · simp [appendedTo, List.filterMap_cons, h1, h2, ih']

/-- C6: after any sequence of `addLink(a, b)` calls with in-range indices on
the initial (empty) graph, for every link `(a, b)` of the sequence `b` occurs in
`getNeighbors(a)` and `a` occurs in `getNeighbors(b)`; and for all zones
`x ≠ y`, `y` occurs in `getNeighbors(x)` as often as `x` in `getNeighbors(y)`. -/
theorem adjacency_symmetry (links : List (Int × Int))
    (h : ∀ l ∈ links, 0 ≤ l.1 ∧ l.1 < MAP_SIZE ∧ 0 ≤ l.2 ∧ l.2 < MAP_SIZE) :
    ∃ m, Map.initial.addLinks links = .ok m ∧
      (∀ a b, (a, b) ∈ links → ∃ na nb, m.getNeighbors a = .ok na ∧
        m.getNeighbors b = .ok nb ∧ b ∈ na ∧ a ∈ nb) ∧
      (∀ x y, 0 ≤ x → x < MAP_SIZE → 0 ≤ y → y < MAP_SIZE → x ≠ y →
        ∃ nx ny, m.getNeighbors x = .ok nx ∧ m.getNeighbors y = .ok ny ∧
          nx.count y = ny.count x) := by
  obtain ⟨m, hm, _, _, hn⟩ := addLinks_inRange links Map.initial h
  have hn' : ∀ z, m.neighbors z = appendedTo links z := by
    intro z; rw [hn z]; rfl
  refine ⟨m, hm, ?_, ?_⟩
  · intro a b hab
    obtain ⟨ha0, ha1, hb0, hb1⟩ := h (a, b) hab
    refine ⟨_, _, getNeighbors_inRange m ha0 ha1, getNeighbors_inRange m hb0 hb1, ?_, ?_⟩
    · rw [hn' a]; exact (mem_appendedTo hab).1
    · rw [hn' b]; exact (mem_appendedTo hab).2
  · intro x y hx0 hx1 hy0 hy1 hxy
    refine ⟨_, _, getNeighbors_inRange m hx0 hx1, getNeighbors_inRange m hy0 hy1, ?_⟩
    rw [hn' x, hn' y]
    exact count_appendedTo links hxy

theorem adjacency_symmetry_witness :
    (∀ l ∈ [((3 : Int), (9 : Int)), (9, 4), (3, 9)],
      0 ≤ l.1 ∧ l.1 < MAP_SIZE ∧ 0 ≤ l.2 ∧ l.2 < MAP_SIZE) ∧
    ∃ m, Map.initial.addLinks [(3, 9), (9, 4), (3, 9)] = .ok m ∧
      (∀ a b, (a, b) ∈ [((3 : Int), (9 : Int)), (9, 4), (3, 9)] → ∃ na nb,
        m.getNeighbors a = .ok na ∧ m.getNeighbors b = .ok nb ∧ b ∈ na ∧ a ∈ nb) ∧
      (∀ x y, 0 ≤ x → x < MAP_SIZE → 0 ≤ y → y < MAP_SIZE → x ≠ y →
        ∃ nx ny, m.getNeighbors x = .ok nx ∧ m.getNeighbors y = .ok ny ∧
          nx.count y = ny.count x) :=
  ⟨by decide, adjacency_symmetry [(3, 9), (9, 4), (3, 9)] (by decide)⟩

/-- C7: after the links `l_1 .. l_n` (in range, endpoints distinct) have been
added to the initial graph, `getNeighbors(z)` is, for every zone `z`, the list
of the other endpoints of the links that have `z` as an endpoint, in the order
of the links.  With no links every neighbor list is empty, and adding a link
`(a, b)` twice puts `b` twice into the list of `a` and `a` twice into that of
`b`. -/
theorem neighbors_in_insertion_order (links : List (Int × Int))
    (h : ∀ l ∈ links, 0 ≤ l.1 ∧ l.1 < MAP_SIZE ∧ 0 ≤ l.2 ∧ l.2 < MAP_SIZE ∧ l.1 ≠ l.2) :
    (∃ m, Map.initial.addLinks links = .ok m ∧
      ∀ z, 0 ≤ z → z < MAP_SIZE → m.getNeighbors z = .ok (otherEndpoints links z)) ∧
    (∃ m0, Map.initial.addLinks [] = .ok m0 ∧
      ∀ z, 0 ≤ z → z < MAP_SIZE → m0.getNeighbors z = .ok []) ∧
    (∀ a b, 0 ≤ a → a < MAP_SIZE → 0 ≤ b → b < MAP_SIZE → a ≠ b →
      ∃ m2, Map.initial.addLinks [(a, b), (a, b)] = .ok m2 ∧
        m2.getNeighbors a = .ok [b, b] ∧ m2.getNeighbors b = .ok [a, a]) := by
  have key : ∀ ls : List (Int × Int),
      (∀ l ∈ ls, 0 ≤ l.1 ∧ l.1 < MAP_SIZE ∧ 0 ≤ l.2 ∧ l.2 < MAP_SIZE ∧ l.1 ≠ l.2) →
      ∃ m, Map.initial.addLinks ls = .ok m ∧
        ∀ z, 0 ≤ z → z < MAP_SIZE → m.getNeighbors z = .ok (otherEndpoints ls z) := by
    intro ls hls
    obtain ⟨m, hm, _, _, hn⟩ := addLinks_inRange ls Map.initial
      (fun l hl => ⟨(hls l hl).1, (hls l hl).2.1, (hls l hl).2.2.1, (hls l hl).2.2.2.1⟩)
    refine ⟨m, hm, ?_⟩
    intro z hz0 hz1
    rw [getNeighbors_inRange m hz0 hz1, hn z,
      appendedTo_eq_otherEndpoints ls z (fun l hl => (hls l hl).2.2.2.2)]
    rfl
  refine ⟨key links h, ?_, ?_⟩
  · obtain ⟨m0, hm0, hn0⟩ := key [] (fun l hl => absurd hl (List.not_mem_nil l))
    exact ⟨m0, hm0, fun z hz0 hz1 => by rw [hn0 z hz0 hz1]; rfl⟩
  · intro a b ha0 ha1 hb0 hb1 hab
    obtain ⟨m2, hm2, hn2⟩ := key [(a, b), (a, b)] (by
      intro l hl
      have hl' : l = (a, b) := by simpa using hl
      subst hl'
      exact ⟨ha0, ha1, hb0, hb1, hab⟩)
    refine ⟨m2, hm2, ?_, ?_⟩
    · rw [hn2 a ha0 ha1]; simp [otherEndpoints]
    · rw [hn2 b hb0 hb1]; simp [otherEndpoints, Ne.symm hab, hab]

theorem neighbors_in_insertion_order_witness :
    (∀ l ∈ [((3 : Int), (9 : Int)), (9, 4), (3, 9)],
      0 ≤ l.1 ∧ l.1 < MAP_SIZE ∧ 0 ≤ l.2 ∧ l.2 < MAP_SIZE ∧ l.1 ≠ l.2) ∧
    (∃ m, Map.initial.addLinks [(3, 9), (9, 4), (3, 9)] = .ok m ∧
      ∀ z, 0 ≤ z → z < MAP_SIZE →
        m.getNeighbors z = .ok (otherEndpoints [(3, 9), (9, 4), (3, 9)] z)) ∧
    (∃ m0, Map.initial.addLinks [] = .ok m0 ∧
      ∀ z, 0 ≤ z → z < MAP_SIZE → m0.getNeighbors z = .ok []) ∧
    (∀ a b, 0 ≤ a → a < MAP_SIZE → 0 ≤ b → b < MAP_SIZE → a ≠ b →
      ∃ m2, Map.initial.addLinks [(a, b), (a, b)] = .ok m2 ∧
        m2.getNeighbors a = .ok [b, b] ∧ m2.getNeighbors b = .ok [a, a]) :=
  ⟨by decide, neighbors_in_insertion_order [(3, 9), (9, 4), (3, 9)] (by decide)⟩

/-! ## C10: loading a turn snapshot -/

theorem assignLine_pods (l : view.ZoneLine) (c : Cell) :
    (view.assignLine l c).owner = l.ownerId ∧
    (view.assignLine l c).pods ⟨0, by decide⟩ = l.podsP0 ∧
    (view.assignLine l c).pods ⟨1, by decide⟩ = l.podsP1 ∧
    (view.assignLine l c).pods ⟨2, by decide⟩ = l.podsP2 ∧
    (view.assignLine l c).pods ⟨3, by decide⟩ = l.podsP3 := by
  refine ⟨rfl, ?_, ?_, ?_, ?_⟩ <;> simp [view.assignLine, Function.update, Fin.ext_iff]

theorem assignLine_eq (l : view.ZoneLine) (c c' : Cell) :
    view.assignLine l c = view.assignLine l c' := by
  obtain ⟨ho, h0, h1, h2, h3⟩ := assignLine_pods l c
  obtain ⟨ho', h0', h1', h2', h3'⟩ := assignLine_pods l c'
  apply Cell.ext
  · rw [ho, ho']
  · funext j
    obtain ⟨j, hj⟩ := j
    have hj' : j < 4 := hj
    rcases (by omega : j = 0 ∨ j = 1 ∨ j = 2 ∨ j = 3) with h | h | h | h <;> subst h
    · rw [h0, h0']
    · rw [h1, h1']
    · rw [h2, h2']
    · rw [h3, h3']

theorem loadLines_inRange (lines : Nat → view.ZoneLine) (is : List Nat) :
    ∀ m : Map, (∀ i ∈ is, 0 ≤ (lines i).zoneId ∧ (lines i).zoneId < MAP_SIZE) →
      is.Pairwise (fun i j => (lines i).zoneId ≠ (lines j).zoneId) →
      ∃ m', is.foldlM (fun acc (i : Nat) => view.loadLine acc (lines i)) m = .ok m' ∧
        m'.platinumSource = m.platinumSource ∧ m'.neighbors = m.neighbors ∧
        (∀ z, (∀ i ∈ is, (lines i).zoneId ≠ z) → m'.cells z = m.cells z) ∧
        (∀ i ∈ is, m'.cells (lines i).zoneId = view.assignLine (lines i) Cell.new) := by
  induction is with
  | nil =>
    intro m _ _
    exact ⟨m, rfl, rfl, rfl, fun _ _ => rfl, fun i hi => absurd hi (List.not_mem_nil i)⟩
  | cons i rest ih =>
    intro m hin hpw
    obtain ⟨hi0, hi1⟩ := hin i (List.mem_cons_self i rest)
    obtain ⟨hirest, hpw'⟩ := List.pairwise_cons.1 hpw
    obtain ⟨m', hm', hp, hn, hframe, hset⟩ :=
      ih { m with cells := (Function.update m.cells (lines i).zoneId
            (view.assignLine (lines i) (m.cells (lines i).zoneId))) }
        (fun j hj => hin j (List.mem_cons_of_mem i hj)) hpw'
    refine ⟨m', ?_, hp, hn, ?_, ?_⟩
    · simp only [List.foldlM_cons, view.loadLine, modifyCell_inRange m _ hi0 hi1, bind,
        Except.bind]
      exact hm'
    · intro z hz
      rw [hframe z (fun j hj => hz j (List.mem_cons_of_mem i hj))]
      exact Function.update_noteq (Ne.symm (hz i (List.mem_cons_self i rest))) _ _
    · intro j hj
      rcases List.mem_cons.1 hj with h | h
      · subst h
        rw [hframe _ (fun k hk => Ne.symm (hirest k hk))]
        simp only [Function.update_same]
        exact assignLine_eq _ _ _
      · exact hset j h

/-- Lines that cover every zone index are a one-to-one listing of the zones. -/
theorem cover_inRange_injective (zid : Nat → Int)
    (hcover : ∀ z, 0 ≤ z → z < MAP_SIZE → ∃ i : Nat, (i : Int) < MAP_SIZE ∧ zid i = z) :
    (∀ i : Nat, (i : Int) < MAP_SIZE → 0 ≤ zid i ∧ zid i < MAP_SIZE) ∧
    (∀ i j : Nat, (i : Int) < MAP_SIZE → (j : Int) < MAP_SIZE → zid i = zid j → i = j) := by
  have hsub : Finset.Ico (0 : Int) 154 ⊆ (Finset.range 154).image zid := by
    intro z hz
    obtain ⟨h0, h1⟩ := Finset.mem_Ico.1 hz
    obtain ⟨i, hi, hzi⟩ := hcover z h0 (by unfold MAP_SIZE; exact h1)
    exact Finset.mem_image.2 ⟨i, Finset.mem_range.2 (by unfold MAP_SIZE at hi; omega), hzi⟩
  have hcardT : (Finset.Ico (0 : Int) 154).card = 154 := by simp
  have hle : ((Finset.range 154).image zid).card ≤ 154 := by
    simpa using Finset.card_image_le (s := Finset.range 154) (f := zid)
  have heq : Finset.Ico (0 : Int) 154 = (Finset.range 154).image zid :=
    Finset.eq_of_subset_of_card_le hsub (by rw [hcardT]; exact hle)
  have hinj : Set.InjOn zid (Finset.range 154 : Finset Nat) :=
    Finset.card_image_iff.1 (by rw [← heq, hcardT]; simp)
  constructor
  · intro i hi
    have hmem : zid i ∈ Finset.Ico (0 : Int) 154 := by
      rw [heq]
      exact Finset.mem_image_of_mem zid (Finset.mem_range.2 (by unfold MAP_SIZE at hi; omega))
    obtain ⟨h0, h1⟩ := Finset.mem_Ico.1 hmem
    exact ⟨h0, by unfold MAP_SIZE; exact h1⟩
  · intro i j hi hj hij
    exact hinj (Finset.mem_coe.2 (Finset.mem_range.2 (by unfold MAP_SIZE at hi; omega)))
      (Finset.mem_coe.2 (Finset.mem_range.2 (by unfold MAP_SIZE at hj; omega))) hij

theorem readTurnInput_cover (m : Map) (platinum : Int) (lines : Nat → view.ZoneLine)
    (hcover : ∀ z, 0 ≤ z → z < MAP_SIZE →
      ∃ i : Nat, (i : Int) < MAP_SIZE ∧ (lines i).zoneId = z) :
    ∃ m', view.readTurnInput m platinum lines = .ok (platinum, m') ∧
      m'.platinumSource = m.platinumSource ∧ m'.neighbors = m.neighbors ∧
      ∀ i : Nat, (i : Int) < MAP_SIZE →
        m'.cells (lines i).zoneId = view.assignLine (lines i) Cell.new := by
  obtain ⟨hin, hinj⟩ := cover_inRange_injective (fun i => (lines i).zoneId) hcover
  have hmemr : ∀ i, i ∈ List.range MAP_SIZE.toNat → (i : Int) < MAP_SIZE := by
    intro i hi
    have := List.mem_range.1 hi
    unfold MAP_SIZE at *
    omega
  obtain ⟨m', hm', hp, hn, _, hset⟩ := loadLines_inRange lines (List.range MAP_SIZE.toNat) m
    (fun i hi => hin i (hmemr i hi))
    ((List.nodup_range MAP_SIZE.toNat).imp_of_mem
      (fun {i j} hi hj hne heq => hne (hinj i j (hmemr i hi) (hmemr j hj) heq)))
  refine ⟨m', ?_, hp, hn, ?_⟩
  · simp only [view.readTurnInput, hm', bind, Except.bind, pure, Except.pure]
  · intro i hi
    exact hset i (List.mem_range.2 (by unfold MAP_SIZE at *; omega))

/-- C10: whatever the map was before (`m1`, `m2`: for instance with owners
overwritten by an earlier acquisition pass), `readTurnInput` on `MAP_SIZE` zone
lines whose zoneIds cover `[0, MAP_SIZE)` succeeds, and afterwards the cell of
every line's zone has the owner and the four pods values of that line; the
cells of two maps loaded with the same snapshot are equal. -/
theorem snapshot_load_complete (m1 m2 : Map) (platinum : Int) (lines : Nat → view.ZoneLine)
    (hcover : ∀ z, 0 ≤ z → z < MAP_SIZE →
      ∃ i : Nat, (i : Int) < MAP_SIZE ∧ (lines i).zoneId = z) :
    ∃ m1' m2', view.readTurnInput m1 platinum lines = .ok (platinum, m1') ∧
      view.readTurnInput m2 platinum lines = .ok (platinum, m2') ∧
      (∀ i : Nat, (i : Int) < MAP_SIZE → ∃ c, m1'.getCell (lines i).zoneId = .ok c ∧
        c.owner = (lines i).ownerId ∧
        c.pods ⟨0, by decide⟩ = (lines i).podsP0 ∧ c.pods ⟨1, by decide⟩ = (lines i).podsP1 ∧
        c.pods ⟨2, by decide⟩ = (lines i).podsP2 ∧ c.pods ⟨3, by decide⟩ = (lines i).podsP3) ∧
      (∀ z, 0 ≤ z → z < MAP_SIZE → m1'.cells z = m2'.cells z) := by
  obtain ⟨hin, _⟩ := cover_inRange_injective (fun i => (lines i).zoneId) hcover
  obtain ⟨m1', hr1, _, _, hc1⟩ := readTurnInput_cover m1 platinum lines hcover
  obtain ⟨m2', hr2, _, _, hc2⟩ := readTurnInput_cover m2 platinum lines hcover
  refine ⟨m1', m2', hr1, hr2, ?_, ?_⟩
  · intro i hi
    obtain ⟨h0, h1⟩ := hin i hi
    refine ⟨_, getCell_inRange m1' h0 h1, ?_⟩
    rw [hc1 i hi]
    exact assignLine_pods (lines i) Cell.new
  · intro z hz0 hz1
    obtain ⟨i, hi, hzi⟩ := hcover z hz0 hz1
    rw [← hzi, hc1 i hi, hc2 i hi]

theorem snapshot_load_complete_witness :
    (∀ z, 0 ≤ z → z < MAP_SIZE →
      ∃ i : Nat, (i : Int) < MAP_SIZE ∧ (snapshotLines i).zoneId = z) ∧
    ∃ m1' m2', view.readTurnInput yieldsMap 45 snapshotLines = .ok (45, m1') ∧
      view.readTurnInput occupiedMap 45 snapshotLines = .ok (45, m2') ∧
      (∀ i : Nat, (i : Int) < MAP_SIZE → ∃ c, m1'.getCell (snapshotLines i).zoneId = .ok c ∧
        c.owner = (snapshotLines i).ownerId ∧
        c.pods ⟨0, by decide⟩ = (snapshotLines i).podsP0 ∧
        c.pods ⟨1, by decide⟩ = (snapshotLines i).podsP1 ∧
        c.pods ⟨2, by decide⟩ = (snapshotLines i).podsP2 ∧
        c.pods ⟨3, by decide⟩ = (snapshotLines i).podsP3) ∧
      (∀ z, 0 ≤ z → z < MAP_SIZE → m1'.cells z = m2'.cells z) :=
  have hcover : ∀ z, 0 ≤ z → z < MAP_SIZE →
      ∃ i : Nat, (i : Int) < MAP_SIZE ∧ (snapshotLines i).zoneId = z :=
    fun z h0 h1 => ⟨z.toNat, by rw [Int.toNat_of_nonneg h0]; exact h1,
      Int.toNat_of_nonneg h0⟩
  ⟨hcover, snapshot_load_complete yieldsMap occupiedMap 45 snapshotLines hcover⟩

/-! ## Frame of the operations on the map -/

theorem modifyCell_frame {m m' : Map} {a : Int} {f : Cell → Cell}
    (h : m.modifyCell a f = .ok m') :
    m'.platinumSource = m.platinumSource ∧ m'.neighbors = m.neighbors := by
  unfold Map.modifyCell subscriptModify at h
  split at h
  · split at h
    · simp only [Except.map, Except.ok.injEq] at h
      subst h
      exact ⟨rfl, rfl⟩
    · simp [Except.map] at h
  · simp at h

theorem addLink_frame {m m' : Map} {a b : Int} (h : m.addLink a b = .ok m') :
    m'.platinumSource = m.platinumSource ∧ m'.cells = m.cells := by
  unfold Map.addLink subscriptModify at h
  by_cases ha : indexGuard a = true <;> by_cases hb : indexGuard b = true <;>
    by_cases ra : 0 ≤ a ∧ a < MAP_SIZE <;> by_cases rb : 0 ≤ b ∧ b < MAP_SIZE <;>
    simp [ha, hb, ra, rb, bind, Except.bind, pure, Except.pure] at h
  subst h
  exact ⟨rfl, rfl⟩

theorem loadLines_frame (lines : Nat → view.ZoneLine) (is : List Nat) :
    ∀ m m' : Map, is.foldlM (fun acc (i : Nat) => view.loadLine acc (lines i)) m = .ok m' →
      m'.platinumSource = m.platinumSource ∧ m'.neighbors = m.neighbors := by
  induction is with
  | nil =>
    intro m m' h
    simp only [List.foldlM_nil, pure, Except.pure, Except.ok.injEq] at h
    subst h
    exact ⟨rfl, rfl⟩
  | cons i rest ih =>
    intro m m' h
    simp only [List.foldlM_cons, bind, Except.bind] at h
    cases h1 : view.loadLine m (lines i) with
    | error e => simp [h1] at h
    | ok m1 =>
      simp only [h1] at h
      obtain ⟨hp, hn⟩ := ih m1 m' h
      obtain ⟨hp1, hn1⟩ := modifyCell_frame (show m.modifyCell _ _ = .ok m1 from h1)
      exact ⟨hp.trans hp1, hn.trans hn1⟩

theorem readTurnInput_frame {m m' : Map} {platinum p' : Int} {lines : Nat → view.ZoneLine}
    (h : view.readTurnInput m platinum lines = .ok (p', m')) :
    p' = platinum ∧ m'.platinumSource = m.platinumSource ∧ m'.neighbors = m.neighbors := by
  unfold view.readTurnInput at h
  simp only [bind, Except.bind] at h
  cases h1 : (List.range MAP_SIZE.toNat).foldlM
      (fun acc (i : Nat) => view.loadLine acc (lines i)) m with
  | error e => simp [h1] at h
  | ok m1 =>
    simp only [h1, pure, Except.pure, Except.ok.injEq, Prod.mk.injEq] at h
    obtain ⟨hp, hm⟩ := h
    subst hm
    exact ⟨hp.symm, loadLines_frame lines _ m m1 h1⟩

theorem acquisitionStep_frame {myId : Int} {rnd : Nat → Int} {s s' : Machine}
    (h : acquisitionStep myId rnd s = .ok s') :
    s'.map.platinumSource = s.map.platinumSource ∧ s'.map.neighbors = s.map.neighbors := by
  unfold acquisitionStep at h
  simp only [bind, Except.bind] at h
  cases h1 : scanLoop s.map (randomNumber rnd s.draws 0 (MAP_SIZE - 1)) with
  | error e => simp [h1] at h
  | ok r =>
    simp only [h1] at h
    cases h2 : s.map.modifyCell r.1 (fun c => { c with owner := myId }) with
    | error e => simp [h2] at h
    | ok m1 =>
      simp only [h2, pure, Except.pure, Except.ok.injEq] at h
      subst h
      exact modifyCell_frame h2

theorem acquisitionLoop_frame (myId : Int) (rnd : Nat → Int) :
    ∀ (fuel : Nat) (s s' : Machine), acquisitionLoop myId rnd fuel s = .ok s' →
      s'.map.platinumSource = s.map.platinumSource ∧ s'.map.neighbors = s.map.neighbors := by
  intro fuel
  induction fuel with
  | zero =>
    intro s s' h
    unfold acquisitionLoop at h
    split at h
    · simp at h
    · simp only [Except.ok.injEq] at h
      subst h
      exact ⟨rfl, rfl⟩
  | succ fuel ih =>
    intro s s' h
    unfold acquisitionLoop at h
    split at h
    · simp only [bind, Except.bind] at h
      cases h1 : acquisitionStep myId rnd s with
      | error e => simp [h1] at h
      | ok s1 =>
        simp only [h1] at h
        obtain ⟨hp, hn⟩ := ih s1 s' h
        obtain ⟨hp1, hn1⟩ := acquisitionStep_frame h1
        exact ⟨hp.trans hp1, hn.trans hn1⟩
    · simp only [Except.ok.injEq] at h
      subst h
      exact ⟨rfl, rfl⟩

theorem mapOp_frame {m m' : Map} {act : MapOp} (h : act.run m = .ok m') :
    m'.platinumSource = m.platinumSource := by
  cases act with
  | addLink a b => exact (addLink_frame (show m.addLink a b = .ok m' from h)).1
  | load platinum lines =>
    simp only [MapOp.run, Except.map] at h
    cases h1 : view.readTurnInput m platinum lines with
    | error e => simp [h1] at h
    | ok r =>
      simp only [h1, Except.ok.injEq] at h
      subst h
      exact (readTurnInput_frame (show view.readTurnInput m platinum lines = .ok (r.1, r.2)
        from h1)).2.1
  | acquire myId rnd fuel platinum =>
    simp only [MapOp.run, Except.map] at h
    cases h1 : acquisitionLoop myId rnd fuel (Machine.start platinum m) with
    | error e => simp [h1] at h
    | ok s' =>
      simp only [h1, Except.ok.injEq] at h
      subst h
      exact (acquisitionLoop_frame myId rnd fuel _ s' h1).1

theorem runMapOps_frame (acts : List MapOp) :
    ∀ m m' : Map, runMapOps m acts = .ok m' → m'.platinumSource = m.platinumSource := by
  induction acts with
  | nil =>
    intro m m' h
    simp only [runMapOps, List.foldlM_nil, pure, Except.pure, Except.ok.injEq] at h
    subst h
    rfl
  | cons act rest ih =>
    intro m m' h
    simp only [runMapOps, List.foldlM_cons, bind, Except.bind] at h
    cases h1 : act.run m with
    | error e => simp [h1] at h
    | ok m1 =>
      simp only [h1] at h
      exact (ih m1 m' h).trans (mapOp_frame h1)

theorem loadLines_ok (lines : Nat → view.ZoneLine) (is : List Nat) :
    ∀ m : Map, (∀ i ∈ is, 0 ≤ (lines i).zoneId ∧ (lines i).zoneId < MAP_SIZE) →
      ∃ m', is.foldlM (fun acc (i : Nat) => view.loadLine acc (lines i)) m = .ok m' := by
  induction is with
  | nil => exact fun m _ => ⟨m, rfl⟩
  | cons i rest ih =>
    intro m hin
    obtain ⟨hi0, hi1⟩ := hin i (List.mem_cons_self i rest)
    obtain ⟨m', hm'⟩ := ih _ (fun j hj => hin j (List.mem_cons_of_mem i hj))
    refine ⟨m', ?_⟩
    simp only [List.foldlM_cons, view.loadLine, modifyCell_inRange m _ hi0 hi1, bind,
      Except.bind]
    exact hm'

theorem readTurnInput_ok (m : Map) (platinum : Int) (lines : Nat → view.ZoneLine)
    (hin : ∀ i : Nat, (i : Int) < MAP_SIZE →
      0 ≤ (lines i).zoneId ∧ (lines i).zoneId < MAP_SIZE) :
    ∃ m', view.readTurnInput m platinum lines = .ok (platinum, m') := by
  obtain ⟨m', hm'⟩ := loadLines_ok lines (List.range MAP_SIZE.toNat) m (by
    intro i hi
    have := List.mem_range.1 hi
    exact hin i (by unfold MAP_SIZE at *; omega))
  exact ⟨m', by simp only [view.readTurnInput, hm', bind, Except.bind, pure, Except.pure]⟩

theorem mapOp_ok (m : Map) (op : MapOp) (h : op.WellFormed) : ∃ m', op.run m = .ok m' := by
  cases op with
  | addLink a b =>
    obtain ⟨ha0, ha1, hb0, hb1⟩ := h
    obtain ⟨m', hm', _⟩ := addLink_inRange m ha0 ha1 hb0 hb1
    exact ⟨m', hm'⟩
  | load platinum lines =>
    obtain ⟨m', hm'⟩ := readTurnInput_ok m platinum lines h
    exact ⟨m', by simp only [MapOp.run, hm', Except.map]⟩
  | acquire myId rnd fuel platinum =>
    obtain ⟨s', hs', _⟩ := acquisitionLoop_run myId rnd h.1 fuel (Machine.start platinum m) h.2
    exact ⟨s'.map, by simp only [MapOp.run, hs', Except.map]⟩

theorem runMapOps_ok (ops : List MapOp) :
    ∀ m : Map, (∀ op ∈ ops, op.WellFormed) → ∃ m', runMapOps m ops = .ok m' := by
  induction ops with
  | nil => exact fun m _ => ⟨m, rfl⟩
  | cons op rest ih =>
    intro m h
    obtain ⟨m1, h1⟩ := mapOp_ok m op (h op (List.mem_cons_self op rest))
    obtain ⟨m', hm'⟩ := ih m1 (fun o ho => h o (List.mem_cons_of_mem op ho))
    refine ⟨m', ?_⟩
    simp only [runMapOps, List.foldlM_cons, h1, bind, Except.bind]
    exact hm'

/-! ## C11: yields after setup -/

/-- Yields under operations whose subscripts stay in bounds: for an in-range
zone `z`, `setPlatinumSource(z, v)` succeeds on any map (whatever was written
before); afterwards `getPlatinumSource(z)` returns `v` and the yield of every
other zone is as before.  A later sequence of `addLink` calls, snapshot loads
and acquisition passes whose link ends and zoneIds are in `[0, MAP_SIZE)` runs
to its end, and every sequence that runs to its end leaves
`getPlatinumSource(z)` at `v`. -/
theorem yield_stable_when_in_range (m : Map) (z v : Int) (ops : List MapOp)
    (h0 : 0 ≤ z) (h1 : z < MAP_SIZE) :
    ∃ m1, m.setPlatinumSource z v = .ok m1 ∧ m1.getPlatinumSource z = .ok v ∧
      (∀ z', z' ≠ z → m1.platinumSource z' = m.platinumSource z') ∧
      (∀ z', 0 ≤ z' → z' < MAP_SIZE → z' ≠ z →
        m1.getPlatinumSource z' = m.getPlatinumSource z') ∧
      (∀ m2, runMapOps m1 ops = .ok m2 → m2.getPlatinumSource z = .ok v) ∧
      ((∀ op ∈ ops, op.WellFormed) → ∃ m2, runMapOps m1 ops = .ok m2) := by
  refine ⟨{ m with platinumSource := Function.update m.platinumSource z v }, ?_, ?_, ?_, ?_, ?_,
    ?_⟩
  · simp [Map.setPlatinumSource, subscriptModify, indexGuard_of_inRange h0 h1, h0, h1,
      Except.map]
  · rw [getPlatinumSource_inRange _ h0 h1]
    simp
  · intro z' hz'
    exact Function.update_noteq hz' _ _
  · intro z' hz0 hz1 hz'
    rw [getPlatinumSource_inRange _ hz0 hz1, getPlatinumSource_inRange _ hz0 hz1]
    exact congrArg Except.ok (Function.update_noteq hz' _ _)
  · intro m2 h2
    rw [getPlatinumSource_inRange _ h0 h1, runMapOps_frame ops _ m2 h2]
    simp
  · intro hwf
    exact runMapOps_ok ops _ hwf

theorem yield_stable_when_in_range_witness :
    (0 : Int) ≤ 3 ∧ (3 : Int) < MAP_SIZE ∧
    ∃ m1 m2, yieldsMap.setPlatinumSource 3 8 = .ok m1 ∧ m1.getPlatinumSource 3 = .ok 8 ∧
      runMapOps m1 [MapOp.addLink 3 9, MapOp.load 45 snapshotLines,
        MapOp.acquire 0 (constDraw 7) 2 45] = .ok m2 ∧
      m2.getPlatinumSource 3 = .ok 8 := by
  have hwf : ∀ op ∈ [MapOp.addLink 3 9, MapOp.load 45 snapshotLines,
      MapOp.acquire 0 (constDraw 7) 2 45], op.WellFormed := by
    intro op hop
    simp only [List.mem_cons, List.mem_singleton, List.not_mem_nil, or_false] at hop
    rcases hop with h | h | h <;> subst h
    · exact ⟨by decide, by decide, by decide, by decide⟩
    · exact fun i hi => ⟨Int.ofNat_nonneg i, hi⟩
    · exact ⟨drawsInRange_const 7 (by decide) (by decide), by decide⟩
  obtain ⟨m1, hset, hget, _, _, hkeep, hrun⟩ :=
    yield_stable_when_in_range yieldsMap 3 8 [MapOp.addLink 3 9, MapOp.load 45 snapshotLines,
      MapOp.acquire 0 (constDraw 7) 2 45] (by decide) (by decide)
  obtain ⟨m2, h2⟩ := hrun hwf
  exact ⟨by decide, by decide, m1, m2, hset, hget, h2, hkeep m2 h2⟩

/-- C11 (code defect, the one of C2): on any map and for any value `v`, after
`setPlatinumSource(150, v)` has set the yield of zone `150`, the later call
`addLink(3, -1)` passes both of its assertions, since `(-1 % MAP_SIZE) == -1`,
appends to `neighbors[3]` and then subscripts `neighbors[-1]` for `push_back`:
a write outside the `neighbors` array, which the assertions were to exclude,
so the yields are not protected from this sequence of `addLink` calls. -/
theorem addLink_negative_end_subscripts_out_of_bounds :
    ∀ (m : Map) (v : Int), ∃ m1, m.setPlatinumSource 150 v = .ok m1 ∧
      m1.getPlatinumSource 150 = .ok v ∧
      indexGuard 3 = true ∧ indexGuard (-1) = true ∧
      ¬ (0 ≤ (-1 : Int) ∧ (-1 : Int) < MAP_SIZE) ∧
      (∃ n1, subscriptModify m1.neighbors 3 (fun l => l ++ [-1]) = .ok n1 ∧
        subscriptModify n1 (-1) (fun l => l ++ [3]) = .error Fault.outOfBounds) ∧
      m1.addLink 3 (-1) = .error Fault.outOfBounds ∧
      runMapOps m1 [MapOp.addLink 3 (-1)] = .error Fault.outOfBounds := by
  intro m v
  have h150 : (0 : Int) ≤ 150 ∧ (150 : Int) < MAP_SIZE := by decide
  have h3 : (0 : Int) ≤ 3 ∧ (3 : Int) < MAP_SIZE := by decide
  have hneg : ¬ (0 ≤ (-1 : Int) ∧ (-1 : Int) < MAP_SIZE) := by decide
  have hg3 : indexGuard 3 = true := by decide
  have hgn : indexGuard (-1) = true := by decide
  have hadd : ∀ m1 : Map, m1.addLink 3 (-1) = .error Fault.outOfBounds := by
    intro m1
    simp [Map.addLink, subscriptModify, hg3, hgn, h3, hneg, bind, Except.bind]
  refine ⟨{ m with platinumSource := Function.update m.platinumSource 150 v }, ?_, ?_, hg3, hgn,
    hneg, ⟨Function.update m.neighbors 3 (m.neighbors 3 ++ [-1]), by simp [subscriptModify, h3],
      by simp [subscriptModify, hneg]⟩, hadd _, ?_⟩
  · simp [Map.setPlatinumSource, subscriptModify, indexGuard_of_inRange h150.1 h150.2, h150,
      Except.map]
  · rw [getPlatinumSource_inRange _ h150.1 h150.2]
    simp
  · simp only [runMapOps, List.foldlM_cons, MapOp.run, hadd, bind, Except.bind]

/-! ## C12: the number of commands does not depend on the draws -/

theorem run_length {myId : Int} {rnd : Nat → Int} {s s' : Machine} (h : Run myId rnd s s') :
    s'.commands.length = s.commands.length + (s.platinum / POD_COST).toNat := by
  obtain ⟨zs, hc, hpl, hlt, hnil, hnn⟩ := run_count h
  rw [hc, List.length_append]
  congr 1
  by_cases hp : s.platinum < POD_COST
  · rw [hnil hp]; unfold POD_COST at *; simp; omega
  · have h0 : 0 ≤ s'.platinum := hnn (by unfold POD_COST at hp; omega)
    unfold POD_COST at *; omega

/-- C12: two passes started from the same yields, owners, `myId` and platinum
write the same number of acquisition commands, whatever the two sequences of
draws (each within the range asked from `randomNumber`). -/
theorem idempotent_command_count (myId : Int) (rnd1 rnd2 : Nat → Int) (map : Map) (p : Int)
    (fuel1 fuel2 : Nat) (hr1 : DrawsInRange rnd1) (hr2 : DrawsInRange rnd2)
    (hf1 : (p / POD_COST).toNat ≤ fuel1) (hf2 : (p / POD_COST).toNat ≤ fuel2) :
    ∃ s1 s2, acquisitionLoop myId rnd1 fuel1 (Machine.start p map) = .ok s1 ∧
      acquisitionLoop myId rnd2 fuel2 (Machine.start p map) = .ok s2 ∧
      s1.commands.length = s2.commands.length := by
  obtain ⟨s1, hl1, hrun1⟩ := acquisitionLoop_run myId rnd1 hr1 fuel1 (Machine.start p map) hf1
  obtain ⟨s2, hl2, hrun2⟩ := acquisitionLoop_run myId rnd2 hr2 fuel2 (Machine.start p map) hf2
  exact ⟨s1, s2, hl1, hl2, by rw [run_length hrun1, run_length hrun2]⟩

theorem idempotent_command_count_witness :
    DrawsInRange (constDraw 7) ∧ DrawsInRange (constDraw 100) ∧
    ((85 : Int) / POD_COST).toNat ≤ 4 ∧ ((85 : Int) / POD_COST).toNat ≤ 6 ∧
    ∃ s1 s2, acquisitionLoop 0 (constDraw 7) 4 (Machine.start 85 yieldsMap) = .ok s1 ∧
      acquisitionLoop 0 (constDraw 100) 6 (Machine.start 85 yieldsMap) = .ok s2 ∧
      s1.commands.length = s2.commands.length :=
  ⟨drawsInRange_const 7 (by decide) (by decide), drawsInRange_const 100 (by decide) (by decide),
    by decide, by decide,
    idempotent_command_count 0 (constDraw 7) (constDraw 100) yieldsMap 85 4 6
      (drawsInRange_const 7 (by decide) (by decide))
      (drawsInRange_const 100 (by decide) (by decide)) (by decide) (by decide)⟩

/-! ## C14: frame of the acquisition pass -/

theorem run_frame {myId : Int} {rnd : Nat → Int} {s s' : Machine} (h : Run myId rnd s s') :
    s'.map.platinumSource = s.map.platinumSource ∧ s'.map.neighbors = s.map.neighbors ∧
    (∀ z, (s'.map.cells z).pods = (s.map.cells z).pods) ∧
    ∃ zs : List Int, s'.commands = s.commands ++ zs ∧
      (∀ z ∈ zs, (s'.map.cells z).owner = myId) ∧
      (∀ z, z ∉ zs → (s'.map.cells z).owner = (s.map.cells z).owner) := by
  induction h with
  | stop s hlt => exact ⟨rfl, rfl, fun _ => rfl, [], by simp, by simp, fun _ _ => rfl⟩
  | buy s s' best hge h0 h1 hsel _ ih =>
    obtain ⟨hp, hn, hpods, zs, hc, hown, hother⟩ := ih
    have hbo : ((s.bought myId best).map.cells best).owner = myId := by
      simp [Machine.bought]
    have hbne : ∀ z, z ≠ best → (s.bought myId best).map.cells z = s.map.cells z := by
      intro z hz
      simp [Machine.bought, Function.update_noteq hz]
    refine ⟨hp, hn, ?_, best :: zs, by rw [hc, commands_bought]; simp, ?_, ?_⟩
    · intro z
      rw [hpods z]
      by_cases hz : z = best
      · subst hz; simp [Machine.bought]
      · rw [hbne z hz]
    · intro z hz
      by_cases hzs : z ∈ zs
      · exact hown z hzs
      · rcases List.mem_cons.1 hz with h | h
        · rw [hother z hzs, h, hbo]
        · exact absurd h hzs
    · intro z hz
      have hz1 : z ≠ best := fun h => hz (h ▸ List.mem_cons_self best zs)
      have hz2 : z ∉ zs := fun h => hz (List.mem_cons_of_mem best h)
      rw [hother z hz2, hbne z hz1]

/-- C14: a pass of the acquisition loop (draws in range) leaves every yield,
every neighbor list and every pods slot of the map as they were; every zone
named in an acquisition command ends with owner `myId`, and every other zone
keeps its owner. -/
theorem acquisition_frame (myId : Int) (rnd : Nat → Int) (map : Map) (p : Int) (fuel : Nat)
    (hr : DrawsInRange rnd) (hf : (p / POD_COST).toNat ≤ fuel) :
    ∃ s', acquisitionLoop myId rnd fuel (Machine.start p map) = .ok s' ∧
      s'.map.platinumSource = map.platinumSource ∧ s'.map.neighbors = map.neighbors ∧
      (∀ z, (s'.map.cells z).pods = (map.cells z).pods) ∧
      (∀ z ∈ s'.commands, (s'.map.cells z).owner = myId) ∧
      (∀ z, z ∉ s'.commands → (s'.map.cells z).owner = (map.cells z).owner) := by
  obtain ⟨s', hloop, hrun⟩ := acquisitionLoop_run myId rnd hr fuel (Machine.start p map) hf
  obtain ⟨hp, hn, hpods, zs, hc, hown, hother⟩ := run_frame hrun
  have hc' : s'.commands = zs := by simpa [Machine.start, Machine.commands, Out.ints] using hc
  rw [← hc'] at hown hother
  exact ⟨s', hloop, hp, hn, hpods, hown, hother⟩

theorem acquisition_frame_witness :
    DrawsInRange (constDraw 7) ∧ ((45 : Int) / POD_COST).toNat ≤ 2 ∧
    ∃ s', acquisitionLoop 0 (constDraw 7) 2 (Machine.start 45 yieldsMap) = .ok s' ∧
      s'.map.platinumSource = yieldsMap.platinumSource ∧
      s'.map.neighbors = yieldsMap.neighbors ∧
      (∀ z, (s'.map.cells z).pods = (yieldsMap.cells z).pods) ∧
      (∀ z ∈ s'.commands, (s'.map.cells z).owner = 0) ∧
      (∀ z, z ∉ s'.commands → (s'.map.cells z).owner = (yieldsMap.cells z).owner) :=
  ⟨drawsInRange_const 7 (by decide) (by decide), by decide,
    acquisition_frame 0 (constDraw 7) yieldsMap 45 2
      (drawsInRange_const 7 (by decide) (by decide)) (by decide)⟩

/-! ## C16: index safety of the acquisition pass -/

theorem getPlatinumSource_ok_iff (m : Map) (a : Int) :
    (∃ v, m.getPlatinumSource a = .ok v) ↔ 0 ≤ a ∧ a < MAP_SIZE := by
  constructor
  · rintro ⟨v, hv⟩
    unfold Map.getPlatinumSource subscript at hv
    by_cases hr : 0 ≤ a ∧ a < MAP_SIZE
    · exact hr
    · by_cases hg : indexGuard a = true <;> simp [hg, hr] at hv
  · rintro ⟨h0, h1⟩
    exact ⟨_, getPlatinumSource_inRange m h0 h1⟩

theorem getCell_ok_iff (m : Map) (a : Int) :
    (∃ c, m.getCell a = .ok c) ↔ 0 ≤ a ∧ a < MAP_SIZE := by
  constructor
  · rintro ⟨v, hv⟩
    unfold Map.getCell subscript at hv
    by_cases hr : 0 ≤ a ∧ a < MAP_SIZE
    · exact hr
    · by_cases hg : indexGuard a = true <;> simp [hg, hr] at hv
  · rintro ⟨h0, h1⟩
    exact ⟨_, getCell_inRange m h0 h1⟩

theorem modifyCell_ok_iff (m : Map) (a : Int) (f : Cell → Cell) :
    (∃ m', m.modifyCell a f = .ok m') ↔ 0 ≤ a ∧ a < MAP_SIZE := by
  constructor
  · rintro ⟨v, hv⟩
    unfold Map.modifyCell subscriptModify at hv
    by_cases hr : 0 ≤ a ∧ a < MAP_SIZE
    · exact hr
    · by_cases hg : indexGuard a = true <;> simp [hg, hr, Except.map] at hv
  · rintro ⟨h0, h1⟩
    exact ⟨_, modifyCell_inRange m f h0 h1⟩

theorem acquisitionLoop_ok_or_fuel (myId : Int) (rnd : Nat → Int) (hr : DrawsInRange rnd) :
    ∀ (fuel : Nat) (s : Machine),
      (∃ s', acquisitionLoop myId rnd fuel s = .ok s') ∨
        acquisitionLoop myId rnd fuel s = .error Fault.fuel := by
  intro fuel
  induction fuel with
  | zero =>
    intro s
    by_cases hge : s.platinum ≥ POD_COST
    · exact Or.inr (by simp [acquisitionLoop, hge])
    · exact Or.inl ⟨s, by simp [acquisitionLoop, hge]⟩
  | succ fuel ih =>
    intro s
    by_cases hge : s.platinum ≥ POD_COST
    · obtain ⟨best, _, _, _, hstep⟩ := acquisitionStep_inRange myId rnd s (hr s.draws)
      rw [acquisitionLoop_succ_of_ge myId rnd fuel hge hstep]
      exact ih _
    · exact Or.inl ⟨s, acquisitionLoop_of_lt myId rnd _ s (not_le.1 hge)⟩

/-- C16: `getPlatinumSource(a)` and `getCell(a)` (read or written) come back
without a failed assertion and without an out-of-bounds subscript exactly when
`0 ≤ a < MAP_SIZE`.  When every draw lies in `[0, MAP_SIZE - 1]`, for every map
and platinum, each iteration's scan returns a `best` in `[0, MAP_SIZE)`, the
acquisition loop never fails an assertion and never subscripts out of bounds,
and it returns once the iteration bound is at least `p / POD_COST`. -/
theorem acquisition_index_safety (myId : Int) (rnd : Nat → Int) (map : Map) (p : Int)
    (fuel : Nat) (hr : DrawsInRange rnd) :
    (∀ (m : Map) (a : Int), (∃ v, m.getPlatinumSource a = .ok v) ↔ 0 ≤ a ∧ a < MAP_SIZE) ∧
    (∀ (m : Map) (a : Int), (∃ c, m.getCell a = .ok c) ↔ 0 ≤ a ∧ a < MAP_SIZE) ∧
    (∀ (m : Map) (a : Int) (f : Cell → Cell),
      (∃ m', m.modifyCell a f = .ok m') ↔ 0 ≤ a ∧ a < MAP_SIZE) ∧
    (∀ s : Machine, ∃ best bestValue,
      scanLoop s.map (rnd s.draws) = .ok (best, bestValue) ∧ 0 ≤ best ∧ best < MAP_SIZE) ∧
    acquisitionLoop myId rnd fuel (Machine.start p map) ≠ .error Fault.assertion ∧
    acquisitionLoop myId rnd fuel (Machine.start p map) ≠ .error Fault.outOfBounds ∧
    ((p / POD_COST).toNat ≤ fuel →
      ∃ s', acquisitionLoop myId rnd fuel (Machine.start p map) = .ok s') := by
  refine ⟨getPlatinumSource_ok_iff, getCell_ok_iff, modifyCell_ok_iff, ?_, ?_, ?_, ?_⟩
  · intro s
    obtain ⟨b, v, hscan, _, hb⟩ := scanLoop_selected s.map (rnd s.draws)
    have hd := hr s.draws
    exact ⟨b, v, hscan, by rcases hb with h | h <;> omega, by rcases hb with h | h <;> omega⟩
  · rcases acquisitionLoop_ok_or_fuel myId rnd hr fuel (Machine.start p map) with ⟨s', h⟩ | h <;>
      rw [h] <;> simp
  · rcases acquisitionLoop_ok_or_fuel myId rnd hr fuel (Machine.start p map) with ⟨s', h⟩ | h <;>
      rw [h] <;> simp
  · intro hf
    obtain ⟨s', hs', _⟩ := acquisitionLoop_run myId rnd hr fuel (Machine.start p map) hf
    exact ⟨s', hs'⟩

theorem acquisition_index_safety_witness :
    DrawsInRange (constDraw 153) ∧
    ∃ s', acquisitionLoop 0 (constDraw 153) 4 (Machine.start 85 occupiedMap) = .ok s' :=
  ⟨drawsInRange_const 153 (by decide) (by decide),
    (acquisition_index_safety 0 (constDraw 153) occupiedMap 85 4
      (drawsInRange_const 153 (by decide) (by decide))).2.2.2.2.2.2 (by decide)⟩

/-! ## C15: the fallback is sticky -/

theorem acquisitionPrefix_of_loop (myId : Int) (rnd : Nat → Int) :
    ∀ (fuel : Nat) (s s' : Machine), acquisitionLoop myId rnd fuel s = .ok s' →
      acquisitionPrefix myId rnd fuel s = .ok s' := by
  intro fuel
  induction fuel with
  | zero =>
    intro s s' h
    unfold acquisitionLoop at h
    split at h
    · simp at h
    · simpa [acquisitionPrefix] using h
  | succ fuel ih =>
    intro s s' h
    unfold acquisitionLoop at h
    unfold acquisitionPrefix
    split at h
    · rename_i hge
      simp only [bind, Except.bind] at h ⊢
      rw [if_pos hge]
      cases h1 : acquisitionStep myId rnd s with
      | error e => simp [h1] at h
      | ok s1 =>
        simp only [h1] at h ⊢
        exact ih s1 s' h
    · rename_i hge
      rw [if_neg hge]
      exact h

theorem acquisitionPrefix_candidates (myId : Int) (rnd : Nat → Int) (hmy : myId ≠ Cell.NEUTRAL)
    (hr : DrawsInRange rnd) :
    ∀ (n : Nat) (s : Machine), ∃ s', acquisitionPrefix myId rnd n s = .ok s' ∧
      ∀ z, Candidate s'.map z → Candidate s.map z := by
  intro n
  induction n with
  | zero => exact fun s => ⟨s, rfl, fun _ h => h⟩
  | succ n ih =>
    intro s
    by_cases hge : s.platinum ≥ POD_COST
    · obtain ⟨best, _, _, _, hstep⟩ := acquisitionStep_inRange myId rnd s (hr s.draws)
      obtain ⟨s', hs', hcand⟩ := ih (s.bought myId best)
      refine ⟨s', ?_, fun z hz => ((candidate_bought hmy s best z).1 (hcand z hz)).1⟩
      simp only [acquisitionPrefix, hge, if_true, hstep, bind, Except.bind]
      exact hs'
    · exact ⟨s, by simp [acquisitionPrefix, hge], fun _ h => h⟩

theorem ownedYieldMap_no_candidate (z : Int) : ¬ Candidate ownedYieldMap z := by
  rintro ⟨_, _, ho, _⟩
  exact (by decide : ¬ ((1 : Int) = -1)) ho

/-- C15: let `myId ≠ NEUTRAL` and draws be in range.  After any number of
iterations of the acquisition loop, every zone that is Neutral with yield `> 0`
was so before; hence from a state without such a zone (an iteration that takes
the fallback) every later state is without one too and its scan returns the
draw.  With `myId = -1` this fails: on a map whose zone `7` has yield `5` and
is owned by player `1`, the fallback purchase of zone `7` makes it Neutral, and
the next iteration selects it although the draw is `3`. -/
theorem fallback_is_sticky (myId : Int) (rnd : Nat → Int) (s : Machine) (n : Nat)
    (hmy : myId ≠ Cell.NEUTRAL) (hr : DrawsInRange rnd) :
    (∃ s', acquisitionPrefix myId rnd n s = .ok s' ∧
      (∀ z, Candidate s'.map z → Candidate s.map z) ∧
      ((∀ z, ¬ Candidate s.map z) → (∀ z, ¬ Candidate s'.map z) ∧
        ∃ v, scanLoop s'.map (rnd s'.draws) = .ok (rnd s'.draws, v))) ∧
    (DrawsInRange (drawsThen 7 3) ∧
      (∀ z, ¬ Candidate (Machine.start 40 ownedYieldMap).map z) ∧
      acquisitionStep (-1) (drawsThen 7 3) (Machine.start 40 ownedYieldMap)
        = .ok ((Machine.start 40 ownedYieldMap).bought (-1) 7) ∧
      Candidate ((Machine.start 40 ownedYieldMap).bought (-1) 7).map 7 ∧
      (acquisitionLoop (-1) (drawsThen 7 3) 2 (Machine.start 40 ownedYieldMap)).toOption.map
        Machine.commands = some [7, 7]) := by
  constructor
  · obtain ⟨s', hs', hcand⟩ := acquisitionPrefix_candidates myId rnd hmy hr n s
    refine ⟨s', hs', hcand, fun hno => ?_⟩
    have hno' : ∀ z, ¬ Candidate s'.map z := fun z hz => hno z (hcand z hz)
    obtain ⟨v, hv, _⟩ := fallback_step myId rnd s' hno' (hr s'.draws)
    exact ⟨hno', v, hv⟩
  · have hd : DrawsInRange (drawsThen 7 3) := by
      intro k
      unfold drawsThen
      by_cases hk : k = 0 <;> simp [hk] <;> decide
    refine ⟨hd, ownedYieldMap_no_candidate, ?_, by decide, ?_⟩
    · obtain ⟨v, _, hstep⟩ := fallback_step (-1) (drawsThen 7 3) (Machine.start 40 ownedYieldMap)
        ownedYieldMap_no_candidate (by decide)
      exact hstep
    · set_option maxRecDepth 1000000 in decide

theorem fallback_is_sticky_witness :
    (0 : Int) ≠ Cell.NEUTRAL ∧ DrawsInRange (constDraw 7) ∧
    ∃ s', acquisitionPrefix 0 (constDraw 7) 3 (Machine.start 85 occupiedMap) = .ok s' ∧
      (∀ z, Candidate s'.map z → Candidate (Machine.start 85 occupiedMap).map z) ∧
      ((∀ z, ¬ Candidate (Machine.start 85 occupiedMap).map z) → (∀ z, ¬ Candidate s'.map z) ∧
        ∃ v, scanLoop s'.map (constDraw 7 s'.draws) = .ok (constDraw 7 s'.draws, v)) :=
  ⟨by decide, drawsInRange_const 7 (by decide) (by decide),
    (fallback_is_sticky 0 (constDraw 7) (Machine.start 85 occupiedMap) 3 (by decide)
      (drawsInRange_const 7 (by decide) (by decide))).1⟩

/-! ## C13: the output of a turn -/

theorem digitChar_ne_newline : ∀ d : Nat, d < 10 → Nat.digitChar d ≠ '\n' := by
  decide

theorem toDigitsCore_no_newline (fuel : Nat) :
    ∀ (n : Nat) (ds : List Char), '\n' ∉ ds → '\n' ∉ Nat.toDigitsCore 10 fuel n ds := by
  induction fuel with
  | zero => intro n ds h; simpa [Nat.toDigitsCore] using h
  | succ fuel ih =>
    intro n ds h
    have hcons : '\n' ∉ Nat.digitChar (n % 10) :: ds := by
      intro hm
      rcases List.mem_cons.1 hm with h1 | h1
      · exact digitChar_ne_newline (n % 10) (Nat.mod_lt n (by decide)) h1.symm
      · exact h h1
    unfold Nat.toDigitsCore
    simp only
    split
    · exact hcons
    · exact ih _ _ hcons

theorem toString_nat_no_newline (n : Nat) : '\n' ∉ (toString n).data := by
  show '\n' ∉ (Nat.repr n).data
  unfold Nat.repr Nat.toDigits
  exact toDigitsCore_no_newline _ _ _ (List.not_mem_nil _)

theorem toString_int_no_newline (z : Int) : '\n' ∉ (toString z).data := by
  cases z with
  | ofNat n => exact toString_nat_no_newline n
  | negSucc n =>
    show '\n' ∉ ("-" ++ toString (n + 1)).data
    rw [String.data_append]
    intro h
    rcases List.mem_append.1 h with h1 | h1
    · revert h1; decide
    · exact toString_nat_no_newline _ h1

theorem renderAll_append (a b : List Out) : renderAll (a ++ b) = renderAll a ++ renderAll b := by
  apply String.ext
  simp [renderAll, String.data_join, String.data_append]

theorem renderAll_commandItems (zs : List Int) :
    renderAll (commandItems zs) = String.join (zs.map (fun z => "1 " ++ toString z ++ " ")) := by
  apply String.ext
  induction zs with
  | nil => rfl
  | cons z zs ih =>
    have h : commandItems (z :: zs) = [Out.str "1 ", Out.int z, Out.str " "] ++ commandItems zs :=
      rfl
    rw [h, renderAll_append, String.data_append, ih]
    simp [renderAll, String.data_join, String.data_append, Out.render]

theorem commandLine_no_newline (zs : List Int) :
    '\n' ∉ (String.join (zs.map (fun z => "1 " ++ toString z ++ " "))).data := by
  rw [String.data_join]
  intro h
  obtain ⟨l, hl, hmem⟩ := List.mem_flatten.1 h
  obtain ⟨s, hs, rfl⟩ := List.mem_map.1 hl
  obtain ⟨z, _, rfl⟩ := List.mem_map.1 hs
  rw [String.data_append, String.data_append] at hmem
  rcases List.mem_append.1 hmem with h1 | h1
  · rcases List.mem_append.1 h1 with h2 | h2
    · revert h2; decide
    · exact toString_int_no_newline z h2
  · revert h1; decide

theorem cout_bought (myId : Int) (s : Machine) (best : Int) :
    (s.bought myId best).cout = s.cout ++ commandItems [best] :=
  rfl

theorem commandItems_cons (z : Int) (zs : List Int) :
    commandItems (z :: zs) = commandItems [z] ++ commandItems zs := by
  simp [commandItems]

theorem run_cout {myId : Int} {rnd : Nat → Int} {s s' : Machine} (h : Run myId rnd s s') :
    ∃ zs : List Int, s'.cout = s.cout ++ commandItems zs ∧ s'.commands = s.commands ++ zs := by
  induction h with
  | stop s hlt => exact ⟨[], by simp [commandItems], by simp⟩
  | buy s s' best hge h0 h1 hsel _ ih =>
    obtain ⟨zs, hco, hc⟩ := ih
    refine ⟨best :: zs, ?_, by rw [hc, commands_bought]; simp⟩
    rw [hco, cout_bought, commandItems_cons best zs, List.append_assoc]

/-- C13: a turn whose zone lines name zones in range, with draws in range,
writes `WAIT`, `endl`, then for each zone acquired, in order, the items `"1 "`,
the zone index, `" "`, and a final `endl`.  The text is `WAIT`, a newline, the
concatenation of the groups `1 <zoneId> ` and a newline; the second line holds
no newline of its own, names `⌊platinum / POD_COST⌋` zones, each owned by
`myId` after the turn, and is empty when `platinum < POD_COST`. -/
theorem turn_output_shape (myId : Int) (rnd : Nat → Int) (fuel : Nat) (s : Machine)
    (platinum : Int) (lines : Nat → view.ZoneLine)
    (hin : ∀ i : Nat, (i : Int) < MAP_SIZE →
      0 ≤ (lines i).zoneId ∧ (lines i).zoneId < MAP_SIZE)
    (hr : DrawsInRange rnd) (hf : (platinum / POD_COST).toNat ≤ fuel) :
    ∃ s' zs, gameTurn myId rnd fuel s platinum lines = .ok s' ∧
      s'.cout = s.cout ++ ([Out.str "WAIT", Out.endl] ++ commandItems zs ++ [Out.endl]) ∧
      s'.commands = s.commands ++ zs ∧
      renderAll ([Out.str "WAIT", Out.endl] ++ commandItems zs ++ [Out.endl])
        = "WAIT" ++ "\n" ++ String.join (zs.map (fun z => "1 " ++ toString z ++ " ")) ++ "\n" ∧
      '\n' ∉ (String.join (zs.map (fun z => "1 " ++ toString z ++ " "))).data ∧
      zs.length = (platinum / POD_COST).toNat ∧
      (∀ z ∈ zs, (s'.map.cells z).owner = myId) ∧
      (platinum < POD_COST → zs = [] ∧
        renderAll ([Out.str "WAIT", Out.endl] ++ commandItems zs ++ [Out.endl])
          = "WAIT" ++ "\n" ++ "" ++ "\n") := by
  obtain ⟨m1, hread⟩ := readTurnInput_ok s.map platinum lines hin
  obtain ⟨s2, hloop, hrun⟩ := acquisitionLoop_run myId rnd hr fuel
    { platinum := platinum, map := m1, cout := s.cout ++ [Out.str "WAIT", Out.endl],
      draws := s.draws } hf
  obtain ⟨zs, hco, hc⟩ := run_cout hrun
  obtain ⟨zs', hc', _, _, hnil, _⟩ := run_count hrun
  have hzz : zs' = zs := List.append_cancel_left (hc'.symm.trans hc)
  subst hzz
  obtain ⟨_, _, _, zs'', hc'', hown, _⟩ := run_frame hrun
  have hzz : zs'' = zs' := List.append_cancel_left (hc''.symm.trans hc)
  subst hzz
  have hlen : s2.commands.length = _ + (platinum / POD_COST).toNat := run_length hrun
  rw [hc, List.length_append] at hlen
  have hrender : renderAll ([Out.str "WAIT", Out.endl] ++ commandItems zs'' ++ [Out.endl])
      = "WAIT" ++ "\n" ++ String.join (zs''.map (fun z => "1 " ++ toString z ++ " ")) ++ "\n" := by
    rw [renderAll_append, renderAll_append, renderAll_commandItems]
    rfl
  refine ⟨{ s2 with cout := s2.cout ++ [Out.endl] }, zs'', ?_, ?_, ?_, hrender,
    commandLine_no_newline zs'', by omega, hown, ?_⟩
  · simp only [gameTurn, hread, bind, Except.bind, hloop, pure, Except.pure]
  · show s2.cout ++ [Out.endl] = _
    rw [hco]
    simp only [List.append_assoc]
  · have h0 : s2.commands = s.commands ++ zs'' := by
      rw [hc]
      simp [Machine.commands, Out.ints_append, Out.ints]
    simpa [Machine.commands, Out.ints_append, Out.ints] using h0
  · intro hlt
    have hz : zs'' = [] := hnil hlt
    refine ⟨hz, ?_⟩
    rw [hrender, hz]
    rfl

theorem turn_output_shape_witness :
    (∀ i : Nat, (i : Int) < MAP_SIZE →
      0 ≤ (snapshotLines i).zoneId ∧ (snapshotLines i).zoneId < MAP_SIZE) ∧
    DrawsInRange (constDraw 7) ∧ ((45 : Int) / POD_COST).toNat ≤ 2 ∧
    ∃ s' zs, gameTurn 0 (constDraw 7) 2 (Machine.start 0 yieldsMap) 45 snapshotLines = .ok s' ∧
      s'.cout = (Machine.start 0 yieldsMap).cout
        ++ ([Out.str "WAIT", Out.endl] ++ commandItems zs ++ [Out.endl]) ∧
      s'.commands = (Machine.start 0 yieldsMap).commands ++ zs ∧
      renderAll ([Out.str "WAIT", Out.endl] ++ commandItems zs ++ [Out.endl])
        = "WAIT" ++ "\n" ++ String.join (zs.map (fun z => "1 " ++ toString z ++ " ")) ++ "\n" ∧
      '\n' ∉ (String.join (zs.map (fun z => "1 " ++ toString z ++ " "))).data ∧
      zs.length = ((45 : Int) / POD_COST).toNat ∧
      (∀ z ∈ zs, (s'.map.cells z).owner = 0) ∧
      ((45 : Int) < POD_COST → zs = [] ∧
        renderAll ([Out.str "WAIT", Out.endl] ++ commandItems zs ++ [Out.endl])
          = "WAIT" ++ "\n" ++ "" ++ "\n") :=
  have hin : ∀ i : Nat, (i : Int) < MAP_SIZE →
      0 ≤ (snapshotLines i).zoneId ∧ (snapshotLines i).zoneId < MAP_SIZE :=
    fun i hi => ⟨Int.ofNat_nonneg i, hi⟩
  ⟨hin, drawsInRange_const 7 (by decide) (by decide), by decide,
    turn_output_shape 0 (constDraw 7) 2 (Machine.start 0 yieldsMap) 45 snapshotLines hin
      (drawsInRange_const 7 (by decide) (by decide)) (by decide)⟩
